import Mathlib

/-!
Verification of the breadboard node-graph execution engine.

This file gives a shallow embedding of the engine's core data model and
operations, translated from the C++ sources:
  * `breadboard/node.h`           (edges, nodes)
  * `breadboard/type.h`           (type descriptors)
  * `breadboard/graph.h`,
    `graph.cpp`                   (graph building, FinalizeNodes, SetDefaultValue)
  * `breadboard/graph_state.h`,
    `graph_state.cpp`             (GraphState, IsDirty, Execute)
  * `breadboard/node_arguments.h`,
    `node_arguments.cpp`          (SetOutput, GetInput, IsListenerDirty)
  * `breadboard/event.h`,
    `event.cpp`                   (listeners, broadcasters)

Modelling conventions:
  * Byte buffers (`MemoryBuffer`) are modelled as maps from start-offset to a
    slot value `Val`.  The layout phase keys every slot by the byte offset it
    computes; two slots alias exactly when they have the same start offset.
  * C++ compares `Type` descriptors by pointer identity; distinct descriptors
    are modelled as distinct `Ty` values (structural equality).
  * Machine integers: offsets and sizes are `Nat` (they never overflow in the
    engine); the per-instance `Timestamp` is a `uint32_t`, so advancing it is
    modelled as `(t + 1) % 2 ^ 32`.
  * `assert`-guarded preconditions (debug assertions and out-of-bounds vector
    accesses, which are undefined behaviour in C++) are modelled by `Option`
    look-ups; paths that would trip an assertion are mapped to an explicit
    error outcome and the theorems carry the corresponding well-formedness
    hypotheses.
-/

namespace Breadboard

/-- Event ids (`EventId`, an opaque `const char**` compared by identity)
are modelled as natural numbers. -/
abbrev EventId := Nat

/-- A `Type` descriptor (breadboard/type.h): a value type's display name, its
size and its alignment.  The placement-new / operator-delete function pointers
are modelled by the slot values written by the construction phases
(`Val.defaultOf`). -/
structure Ty where
  name : String
  size : Nat
  alignment : Nat
deriving DecidableEq, Repr

/-- The content of one layout slot of a `MemoryBuffer`.  Fresh buffers are
zero-filled (`std::vector<uint8_t>::resize`), modelled by `zeroed`. -/
inductive Val where
  | zeroed
  | ts (t : Nat)
  | listener (t : Nat) (eid : EventId)
  | defaultOf (tyName : String)
  | intV (n : Int)
deriving DecidableEq, Repr

/-- Reading a `Timestamp` out of a slot (`MemoryBuffer::GetObject<Timestamp>`).
A zeroed slot reads as timestamp `0`. -/
def Val.tsVal : Val → Nat
  | .ts t => t
  | _ => 0

/-- Reading the `timestamp_` field of a `NodeEventListener` stored in a slot.
A zeroed slot reads as timestamp `0` (listeners are constructed with
timestamp 0). -/
def Val.listenerTs : Val → Nat
  | .listener t _ => t
  | _ => 0

/-- `NodeEventListener::MarkDirty` writes the listener's `timestamp_` field in
place, leaving the rest of the listener object intact. -/
def Val.stampListener (v : Val) (t : Nat) : Val :=
  match v with
  | .listener _ eid => .listener t eid
  | other => other

/-- A `MemoryBuffer`, keyed by slot start offset. -/
def Buf := Nat → Val

/-- Writing one slot of a buffer. -/
def Buf.write (b : Buf) (o : Nat) (v : Val) : Buf :=
  fun o' => if o' = o then v else b o'

/-- A freshly resized (zero-filled) buffer. -/
def Buf.zero : Buf := fun _ => Val.zeroed

@[simp] theorem Buf.write_same (b : Buf) (o : Nat) (v : Val) : b.write o v o = v := by
  simp [Buf.write]

theorem Buf.write_other (b : Buf) (o o' : Nat) (v : Val) (h : o' ≠ o) :
    b.write o v o' = b o' := by
  simp [Buf.write, h]

/-- `OutputEdgeTarget` (node.h): refers to a specific output edge of a specific
node by index. -/
structure OutputEdgeTarget where
  node_index : Nat
  edge_index : Nat
deriving DecidableEq, Repr

/-- `kInvalidNodeIndex` / `kInvalidEdgeIndex`: `static_cast<unsigned int>(-1)`. -/
def kInvalidIndex : Nat := 4294967295

/-- An `InputEdge` (node.h): either connected to an output edge (`target`), or
unconnected with a `data_offset` into the graph's default-value buffer.
The default constructor leaves it unconnected with offset 0. -/
structure InputEdge where
  connected : Bool := false
  data_offset : Nat := 0
  target : OutputEdgeTarget := ⟨kInvalidIndex, kInvalidIndex⟩
deriving DecidableEq, Repr

/-- `InputEdge::SetTarget`. -/
def InputEdge.SetTarget (e : InputEdge) (node_index output_index : Nat) : InputEdge :=
  { e with connected := true, target := ⟨node_index, output_index⟩ }

/-- `InputEdge::SetDataOffset` (the C++ asserts `!connected_` first). -/
def InputEdge.SetDataOffset (e : InputEdge) (o : Nat) : InputEdge :=
  { e with data_offset := o }

/-- An `OutputEdge` (node.h): a connected flag plus offsets of its timestamp
slot and its data slot in the per-instance buffer. -/
structure OutputEdge where
  connected : Bool := false
  timestamp_offset : Nat := 0
  data_offset : Nat := 0
deriving DecidableEq, Repr

/-- A `NodeSignature` (node_signature.h): the declared input parameter types,
output parameter types and event-listener declarations of a node kind,
plus its registration identity.  (`input_parameters()[i].type` is modelled as
`input_parameters[i]`; display names of parameters are dropped, and the
behaviour-object constructor is modelled separately, see `Behavior`.) -/
structure NodeSignature where
  module_name : String
  node_name : String
  input_parameters : List Ty
  output_parameters : List Ty
  event_listeners : List EventId
deriving DecidableEq, Repr

/-- A `Node` (node.h).  The `base_node_` behaviour object is modelled
externally (see `Behavior`); `inserted_` and `visited_` are the two-colour
marks used by the topological sort. -/
structure Node where
  signature : NodeSignature
  input_edges : List InputEdge := []
  output_edges : List OutputEdge := []
  listener_offsets : List Nat := []
  timestamp_offset : Nat := 0
  inserted : Bool := false
  visited : Bool := false
deriving DecidableEq, Repr

/-- The fields of a `Node` other than the topological-sort marks.  The sort
phase only ever toggles `inserted`/`visited`; `core` is what it preserves. -/
def Node.core (n : Node) :
    NodeSignature × List InputEdge × List OutputEdge × List Nat × Nat :=
  (n.signature, n.input_edges, n.output_edges, n.listener_offsets, n.timestamp_offset)

/-- A `Graph` (graph.h).  `sorted_nodes_` holds `Node*` pointers into `nodes_`
in the C++; it is modelled as a list of node indices.  `input_buffer_` is the
shared default-value buffer (its size is kept alongside its contents). -/
structure Graph where
  graph_name : String
  nodes : List Node
  sorted_nodes : List Nat := []
  input_buffer_size : Nat := 0
  input_buffer : Buf := Buf.zero
  output_buffer_size : Nat := 0
  nodes_finalized : Bool := false

/-- `Graph::AddNode`: appends a fresh node for the signature (the C++ also
constructs the behaviour object here, which is modelled externally). -/
def Graph.AddNode (g : Graph) (signature : NodeSignature) : Graph :=
  { g with nodes := g.nodes ++ [{ signature := signature }] }

/-- Diagnostics emitted through `CallLogFunc`, as structured records carrying
exactly the data the C++ format strings interpolate. -/
inductive LogMsg where
  /-- "Error in graph ...: Node %d got %d edges, but expected %d" -/
  | edgeCountMismatch (graph_name : String) (node_index got expected : Nat)
  /-- "Could not resolve graph ...: Type mismatch. Node %d, input edge %d is
  type ... but is connected to node %d, output edge %d of type ..." -/
  | typeMismatch (graph_name : String) (node_index edge_index : Nat)
      (input_type_name : String) (target_node_index target_edge_index : Nat)
      (output_type_name : String)
  /-- "Could not resolve graph: Circular dependency." -/
  | circularDependency
  /-- "Attempting to assign a default value on node %d when graph only has %d
  nodes." -/
  | defaultNodeOutOfRange (graph_name : String) (node_index nodes_len : Nat)
  /-- "Attempting to assign a default value to node %i ..., edge %d when node
  only has %d input edges." -/
  | defaultEdgeOutOfRange (graph_name : String) (node_index edge_index edges_len : Nat)
  /-- "Attempting to assign a default value of the incorrect type ... Edge got
  type ... when it expects type ..." -/
  | defaultTypeMismatch (graph_name : String) (node_index edge_index : Nat)
      (got expected : String)
  /-- A path on which the C++ would trip a debug assertion or perform an
  out-of-bounds vector access (undefined behaviour); modelled as a failure. -/
  | assertViolation
deriving DecidableEq, Repr

/-! ### List helpers (std::vector update / resize) -/

/-- In-place update of one element of a vector (`nodes_[i] = ...` through a
reference or pointer). -/
def updateNth (f : α → α) : Nat → List α → List α
  | _, [] => []
  | 0, x :: xs => f x :: xs
  | n + 1, x :: xs => x :: updateNth f n xs

@[simp] theorem length_updateNth (f : α → α) (n : Nat) (l : List α) :
    (updateNth f n l).length = l.length := by
  induction l generalizing n with
  | nil => cases n <;> rfl
  | cons x xs ih => cases n <;> simp [updateNth, ih]

theorem getElem?_updateNth_self (f : α → α) (n : Nat) (l : List α) :
    (updateNth f n l)[n]? = (l[n]?).map f := by
  induction l generalizing n with
  | nil => cases n <;> rfl
  | cons x xs ih => cases n <;> simp [updateNth, ih]

theorem getElem?_updateNth_other (f : α → α) (n m : Nat) (l : List α) (h : m ≠ n) :
    (updateNth f n l)[m]? = l[m]? := by
  induction l generalizing n m with
  | nil => cases n <;> rfl
  | cons x xs ih =>
    cases n with
    | zero => cases m with
      | zero => exact absurd rfl h
      | succ m => simp [updateNth]
    | succ n => cases m with
      | zero => simp [updateNth]
      | succ m => simpa [updateNth] using ih n m (by omega)

/-- `std::vector::resize(n)`: keeps the first `n` elements, value-initializes
any new ones. -/
def listResize (l : List α) (n : Nat) (dflt : α) : List α :=
  l.take n ++ List.replicate (n - l.length) dflt

/-- Position of an element in a list (the index of its first occurrence);
used to state "strictly before" over `sorted_nodes`. -/
def listPos (x : Nat) : List Nat → Nat
  | [] => 0
  | y :: ys => if y = x then 0 else listPos x ys + 1

theorem listPos_append_of_mem (x : Nat) (l l' : List Nat) (h : x ∈ l) :
    listPos x (l ++ l') = listPos x l := by
  induction l with
  | nil => cases h
  | cons y ys ih =>
    by_cases hy : y = x
    · simp [listPos, hy]
    · have : x ∈ ys := by
        rcases List.mem_cons.mp h with h' | h'
        · exact absurd h'.symm hy
        · exact h'
      simp [listPos, hy, ih this]

theorem listPos_lt_length (x : Nat) (l : List Nat) (h : x ∈ l) :
    listPos x l < l.length := by
  induction l with
  | nil => cases h
  | cons y ys ih =>
    by_cases hy : y = x
    · simp [listPos, hy]
    · have : x ∈ ys := by
        rcases List.mem_cons.mp h with h' | h'
        · exact absurd h'.symm hy
        · exact h'
      simpa [listPos, hy] using Nat.succ_lt_succ (ih this)

theorem listPos_append_not_mem (x : Nat) (l l' : List Nat) (h : x ∉ l) :
    listPos x (l ++ l') = l.length + listPos x l' := by
  induction l with
  | nil => simp [listPos]
  | cons y ys ih =>
    have hy : y ≠ x := fun he => h (he ▸ List.mem_cons_self y ys)
    have : x ∉ ys := fun hm => h (List.mem_cons_of_mem _ hm)
    simp [listPos, hy, ih this]
    omega

/-! ### Topological sort (`Graph::InsertNode`, `Graph::SortGraphNodes`)

The C++ recursion mutates the `inserted_`/`visited_` marks stored in the
nodes and appends to `sorted_nodes_`; that mutable state is threaded as
`SortSt`.  The recursion terminates because every recursive `InsertNode` call
first marks a previously unvisited, uninserted node as visited, so the
recursion depth is bounded by the number of nodes; the model makes this
explicit with a fuel parameter of `nodes.length + 1`, and exhausting the fuel
is reported as a failure outcome. -/

/-- The state mutated by the topological sort. -/
structure SortSt where
  graph_name : String
  nodes : List Node
  sorted : List Nat
deriving DecidableEq, Repr

/-- Outcome of an `InsertNode` call (`true` / `false` in the C++, plus the
fuel-exhaustion marker of the model). -/
inductive SortOutcome where
  | ok
  | err
  | fuelOut
deriving DecidableEq, Repr

/-- `node->set_visited(true)` on entry to `InsertNode`. -/
def markVisited (ni : Nat) (st : SortSt) : SortSt :=
  { st with nodes := updateNth (fun n => { n with visited := true }) ni st.nodes }

/-- The successful exit of `InsertNode`: `set_visited(false)`,
`set_inserted(true)`, `sorted_nodes_.push_back(node)`. -/
def markInserted (ni : Nat) (st : SortSt) : SortSt :=
  { st with
    nodes := updateNth (fun n => { n with visited := false, inserted := true }) ni st.nodes,
    sorted := st.sorted ++ [ni] }

/-- Prepend diagnostics of an inner call to a loop continuation's result. -/
def prependLog (log : List LogMsg) (r : SortSt × List LogMsg × SortOutcome) :
    SortSt × List LogMsg × SortOutcome :=
  (r.1, log ++ r.2.1, r.2.2)

/-- The loop over the input edges of node `ni` inside `Graph::InsertNode`;
`js` is the list of edge indices still to process and `insert` is the
recursive `InsertNode` call used for uninserted dependencies. -/
def edgeLoopGo (insert : SortSt → Nat → SortSt × List LogMsg × SortOutcome)
    (st : SortSt) (ni : Nat) : List Nat → SortSt × List LogMsg × SortOutcome
  | [] => (st, [], .ok)
  | j :: rest =>
    match st.nodes[ni]? with
    | none => (st, [LogMsg.assertViolation], .err)
    | some node =>
      match node.input_edges[j]? with
      | none => (st, [LogMsg.assertViolation], .err)
      | some edge =>
        if edge.connected then
          match st.nodes[edge.target.node_index]? with
          | none => (st, [LogMsg.assertViolation], .err)
          | some dependency =>
            match node.signature.input_parameters[j]?,
                  dependency.signature.output_parameters[edge.target.edge_index]? with
            | some input_type, some output_type =>
              if input_type ≠ output_type then
                (st, [LogMsg.typeMismatch st.graph_name ni j input_type.name
                        edge.target.node_index edge.target.edge_index output_type.name],
                 .err)
              else if dependency.visited then
                (st, [LogMsg.circularDependency], .err)
              else if !dependency.inserted then
                match insert st edge.target.node_index with
                | (st', log, .ok) => prependLog log (edgeLoopGo insert st' ni rest)
                | stop => stop
              else edgeLoopGo insert st ni rest
            | _, _ => (st, [LogMsg.assertViolation], .err)
        else edgeLoopGo insert st ni rest

/-- `Graph::InsertNode` on the node at index `ni`. -/
def InsertNodeF : Nat → SortSt → Nat → SortSt × List LogMsg × SortOutcome
  | 0, st, _ => (st, [], .fuelOut)
  | fuel + 1, st, ni =>
    match st.nodes[ni]? with
    | none => (st, [LogMsg.assertViolation], .err)
    | some node =>
      if node.inserted then (st, [], .ok)
      else
        let st1 := markVisited ni st
        match edgeLoopGo (InsertNodeF fuel) st1 ni (List.range node.input_edges.length) with
        | (st2, log, .ok) => (markInserted ni st2, log, .ok)
        | stop => stop

/-- The loop of `Graph::SortGraphNodes` over all nodes. -/
def SortLoopF (fuel : Nat) (st : SortSt) : List Nat → SortSt × List LogMsg × Bool
  | [] => (st, [], true)
  | ni :: rest =>
    match InsertNodeF fuel st ni with
    | (st', log, .ok) =>
      ((SortLoopF fuel st' rest).1, log ++ (SortLoopF fuel st' rest).2.1,
        (SortLoopF fuel st' rest).2.2)
    | (st', log, _) => (st', log, false)

/-- The sorting state `Graph::SortGraphNodes` starts from. -/
def sortEntry (g : Graph) : SortSt :=
  { graph_name := g.graph_name, nodes := g.nodes, sorted := g.sorted_nodes }

/-- `Graph::SortGraphNodes`. -/
def Graph.SortGraphNodes (g : Graph) : Graph × List LogMsg × Bool :=
  let r := SortLoopF (g.nodes.length + 1) (sortEntry g) (List.range g.nodes.length)
  ({ g with nodes := r.1.nodes, sorted_nodes := r.1.sorted }, r.2.1, r.2.2)

/-! ### Layout (`Graph::FinalizeNodes`) -/

/-- `Align`: rounds `ptr` up to a multiple of `alignment`.  The C++ computes
`(ptr + alignment - 1) & ~(alignment - 1)` for power-of-two alignments, which
equals this division form (including the degenerate `alignment = 0` case,
where both produce 0). -/
def Align (ptr alignment : Nat) : Nat :=
  ((ptr + alignment - 1) / alignment) * alignment

/-- `AdvanceOffset`: aligns the running offset, reserves `size` bytes, and
returns (new running offset, reserved offset). -/
def AdvanceOffset (offset size alignment : Nat) : Nat × Nat :=
  let result := Align offset alignment
  (result + size, result)

/-- `sizeof(Timestamp)` / `alignof(Timestamp)` (`uint32_t`). -/
def TimestampSize : Nat := 4
def TimestampAlign : Nat := 4

/-- `sizeof(NodeEventListener)` / `alignof` on an LP64 target (an intrusive
list node of two pointers, a `GraphState*`, a `Timestamp` and an `EventId`). -/
def ListenerSize : Nat := 40
def ListenerAlign : Nat := 8

/-- The first pass of `FinalizeNodes` for one input edge `(i, j)`: a connected
edge marks its target output edge connected; an unconnected edge is assigned a
default-value offset.  Returns the updated nodes and input-offset cursor, or
an error for an access the C++ could not perform safely. -/
def phase1Edge (nodes : List Node) (off : Nat) (i j : Nat) :
    (List Node × Nat) ⊕ LogMsg :=
  match nodes[i]? with
  | none => .inr LogMsg.assertViolation
  | some node =>
    match node.input_edges[j]? with
    | none => .inr LogMsg.assertViolation
    | some input_edge =>
      if input_edge.connected then
        match nodes[input_edge.target.node_index]? with
        | none => .inr LogMsg.assertViolation
        | some tgt =>
          if input_edge.target.edge_index < tgt.output_edges.length then
            let setConn := fun (n : Node) =>
              { n with output_edges := updateNth (fun e => { e with connected := true }) input_edge.target.edge_index n.output_edges }
            .inl (updateNth setConn input_edge.target.node_index nodes, off)
          else .inr LogMsg.assertViolation
      else
        match node.signature.input_parameters[j]? with
        | none => .inr LogMsg.assertViolation
        | some ty =>
          let r := AdvanceOffset off ty.size ty.alignment
          let setOff := fun (n : Node) =>
            { n with input_edges := updateNth (fun e => e.SetDataOffset r.2) j n.input_edges }
          .inl (updateNth setOff i nodes, r.1)

/-- The inner loop of the first pass over the edges of node `i`.  On failure
the already-performed mutations are kept (the C++ mutates in place and
returns). -/
def phase1Edges (nodes : List Node) (off : Nat) (i : Nat) :
    List Nat → List Node × Nat × Option LogMsg
  | [] => (nodes, off, none)
  | j :: rest =>
    match phase1Edge nodes off i j with
    | .inl (nodes', off') => phase1Edges nodes' off' i rest
    | .inr m => (nodes, off, some m)

/-- The first pass of `FinalizeNodes`: per node, check the edge count against
the signature, then process its input edges.  On failure the mutations made
for earlier nodes are kept. -/
def phase1Nodes (graph_name : String) (nodes : List Node) (off : Nat) :
    List Nat → List Node × Nat × Option LogMsg
  | [] => (nodes, off, none)
  | i :: rest =>
    match nodes[i]? with
    | none => (nodes, off, some LogMsg.assertViolation)
    | some node =>
      if node.signature.input_parameters.length ≠ node.input_edges.length then
        (nodes, off,
         some (LogMsg.edgeCountMismatch graph_name i node.input_edges.length
                 node.signature.input_parameters.length))
      else
        match phase1Edges nodes off i (List.range node.signature.input_parameters.length) with
        | (nodes', off', none) => phase1Nodes graph_name nodes' off' rest
        | (nodes', off', some m) => (nodes', off', some m)

/-- The default-value construction pass: for every unconnected input edge of
non-void type, placement-new a default value at its offset in the
default-value buffer. -/
def phase2Node (buf : Buf) (node : Node) : Buf :=
  (node.input_edges.zip node.signature.input_parameters).foldl
    (fun b p =>
      if p.1.connected then b
      else if p.2.size > 0 then b.write p.1.data_offset (.defaultOf p.2.name)
      else b)
    buf

/-- The per-instance layout pass for one node: reserve the node's own dirty
timestamp slot, then a timestamp + data slot for every connected output edge,
then one listener slot per listener declaration. -/
def phase3Node (off : Nat) (node : Node) : Nat × Node :=
  let r0 := AdvanceOffset off TimestampSize TimestampAlign
  let r1 := node.output_edges.foldl
    (fun (acc : Nat × List OutputEdge) oe =>
      if oe.connected then
        let rts := AdvanceOffset acc.1 TimestampSize TimestampAlign
        let ty := (node.signature.output_parameters[acc.2.length]?).getD ⟨"", 0, 0⟩
        let rdata := AdvanceOffset rts.1 ty.size ty.alignment
        (rdata.1, acc.2 ++ [{ oe with timestamp_offset := rts.2, data_offset := rdata.2 }])
      else (acc.1, acc.2 ++ [oe]))
    (r0.1, [])
  let r2 := node.signature.event_listeners.foldl
    (fun (acc : Nat × List Nat) _ =>
      let rl := AdvanceOffset acc.1 ListenerSize ListenerAlign
      (rl.1, acc.2 ++ [rl.2]))
    (r1.1, [])
  (r2.1, { node with
            timestamp_offset := r0.2,
            output_edges := r1.2,
            listener_offsets := node.listener_offsets ++ r2.2 })

/-- The per-instance layout pass over all nodes. -/
def phase3Nodes (off : Nat) : List Node → Nat × List Node
  | [] => (off, [])
  | n :: rest =>
    (  (phase3Nodes (phase3Node off n).1 rest).1,
       (phase3Node off n).2 :: (phase3Nodes (phase3Node off n).1 rest).2)

/-- The initial `output_edges().resize(...)` loop of `FinalizeNodes`. -/
def resizeOutputEdges (nodes : List Node) : List Node :=
  nodes.map (fun n =>
    { n with output_edges :=
        listResize n.output_edges n.signature.output_parameters.length {} })

/-- The state of the graph after the layout passes of `FinalizeNodes` (default
value construction and per-instance layout), given the nodes and default-value
buffer size produced by the first pass. -/
def finalizeLayout (g : Graph) (nodes1 : List Node) (input_size : Nat) : Graph :=
  { g with
    nodes := (phase3Nodes 0 nodes1).2,
    input_buffer_size := input_size,
    input_buffer := nodes1.foldl phase2Node Buf.zero,
    output_buffer_size := (phase3Nodes 0 nodes1).1 }

/-- The tail of `FinalizeNodes` after a successful first pass: construct
defaults, lay out the per-instance buffer, sort, and mark finalized on
success. -/
def finalizeSort (g : Graph) (nodes1 : List Node) (input_size : Nat) :
    Graph × List LogMsg × Bool :=
  match Graph.SortGraphNodes (finalizeLayout g nodes1 input_size) with
  | (g3, log, true) => ({ g3 with nodes_finalized := true }, log, true)
  | (g3, log, false) => (g3, log, false)

/-- `Graph::FinalizeNodes`.  Returns the (possibly partially mutated) graph,
the diagnostics logged, and the boolean result.  The phases run in the order
of the C++: resize output-edge vectors; mark connected outputs and lay out the
default-value buffer (failing on an edge-count mismatch); initialize the
default-value buffer and construct defaults; lay out the per-instance buffer;
record its size; topologically sort (failing on a type mismatch or a cycle);
only then set `nodes_finalized_`. -/
def Graph.FinalizeNodes (g : Graph) : Graph × List LogMsg × Bool :=
  match phase1Nodes g.graph_name (resizeOutputEdges g.nodes) 0
          (List.range (resizeOutputEdges g.nodes).length) with
  | (nodes1, _, some m) => ({ g with nodes := nodes1 }, [m], false)
  | (nodes1, input_size, none) => finalizeSort g nodes1 input_size

/-! ### Graph instances (`GraphState`) and node execution -/

/-- The `uint32_t` modulus for `Timestamp` arithmetic. -/
def TsMod : Nat := 2 ^ 32

/-- A `GraphState` (graph_state.h): one live instance of a graph, owning the
per-instance output buffer and the instance-local timestamp counter
(constructed as 0). -/
structure GraphState where
  graph : Graph
  output_buffer : Buf := Buf.zero
  timestamp : Nat := 0

/-- One `SetOutput` call performed by a behaviour object through its
`NodeArguments` (the two C++ overloads). -/
inductive Action where
  | setOutput (argument_index : Nat) (value : Val)
  | setOutputVoid (argument_index : Nat)

/-- A behaviour object's `Execute` (or `Initialize`) callback, modelled as a
function from the data reachable through `NodeArguments` — the node, the
graph's node list, the default-value buffer, the per-instance buffer at entry
and the current timestamp — to the sequence of `SetOutput` calls it makes. -/
def Behavior := Node → List Node → Buf → Buf → Nat → List Action

/-- `NodeArguments::SetOutput(argument_index, value)` (node_arguments.h): a
no-op on an unconnected edge; otherwise writes the edge's timestamp slot and
then its data slot.  (`VerifyOutputPreconditions` asserts on an out-of-range
index; that path is modelled as a no-op and excluded by hypothesis.) -/
def NodeArguments.SetOutput (node : Node) (out_buf : Buf) (ts : Nat)
    (argument_index : Nat) (value : Val) : Buf :=
  match node.output_edges[argument_index]? with
  | none => out_buf
  | some output_edge =>
    if !output_edge.connected then out_buf
    else ((out_buf.write output_edge.timestamp_offset (.ts ts)).write
            output_edge.data_offset value)

/-- The signal-only `NodeArguments::SetOutput(argument_index)` overload for
void edges: writes only the timestamp slot. -/
def NodeArguments.SetOutputSignal (node : Node) (out_buf : Buf) (ts : Nat)
    (argument_index : Nat) : Buf :=
  match node.output_edges[argument_index]? with
  | none => out_buf
  | some output_edge =>
    if !output_edge.connected then out_buf
    else out_buf.write output_edge.timestamp_offset (.ts ts)

/-- `NodeArguments::GetInput`: reads through the target output edge's data
slot if connected, else from the default-value buffer. -/
def NodeArguments.GetInput (node : Node) (nodes : List Node)
    (input_buf out_buf : Buf) (argument_index : Nat) : Option Val :=
  match node.input_edges[argument_index]? with
  | none => none
  | some input_edge =>
    if input_edge.connected then
      match nodes[input_edge.target.node_index]? with
      | none => none
      | some tnode =>
        match tnode.output_edges[input_edge.target.edge_index]? with
        | none => none
        | some output_edge => some (out_buf output_edge.data_offset)
    else some (input_buf input_edge.data_offset)

/-- `NodeArguments::IsListenerDirty`: compares the listener's stored timestamp
with the current timestamp. -/
def NodeArguments.IsListenerDirty (node : Node) (out_buf : Buf) (ts : Nat)
    (listener_index : Nat) : Bool :=
  match node.listener_offsets[listener_index]? with
  | none => false
  | some off => (out_buf off).listenerTs == ts

/-- Applying one recorded `SetOutput` call. -/
def applyAction (node : Node) (ts : Nat) (buf : Buf) : Action → Buf
  | .setOutput i v => NodeArguments.SetOutput node buf ts i v
  | .setOutputVoid i => NodeArguments.SetOutputSignal node buf ts i

/-- `GraphState::IsDirty` (graph_state.cpp): the node's own timestamp slot,
any of its listeners, or the timestamp of any output edge targeted by one of
its connected input edges equals the current timestamp. -/
def IsDirtyB (nodes : List Node) (buf : Buf) (ts : Nat) (node : Node) : Bool :=
  (buf node.timestamp_offset).tsVal == ts
  || node.listener_offsets.any (fun off => (buf off).listenerTs == ts)
  || node.input_edges.any (fun e =>
       e.connected &&
       (match nodes[e.target.node_index]? with
        | some tnode =>
          match tnode.output_edges[e.target.edge_index]? with
          | some oe => (buf oe.timestamp_offset).tsVal == ts
          | none => false
        | none => false))

/-- One visit of the `Execute` loop: the node index, the per-instance buffer
at the moment the node was visited, and whether its callback was invoked. -/
structure TraceEntry where
  node_index : Nat
  buf : Buf
  invoked : Bool

/-- The loop of `GraphState::Execute` over `sorted_nodes`, also producing the
visit trace.  `ts` is the pass's timestamp (passed by value to every
`NodeArguments`). -/
def ExecuteAux (behaviors : Nat → Behavior) (nodes : List Node)
    (input_buf : Buf) (ts : Nat) : Buf → List Nat → Buf × List TraceEntry
  | buf, [] => (buf, [])
  | buf, ni :: rest =>
    match nodes[ni]? with
    | none => ExecuteAux behaviors nodes input_buf ts buf rest
    | some node =>
      if IsDirtyB nodes buf ts node then
        let buf' := (behaviors ni node nodes input_buf buf ts).foldl (applyAction node ts) buf
        let r := ExecuteAux behaviors nodes input_buf ts buf' rest
        (r.1, ⟨ni, buf, true⟩ :: r.2)
      else
        let r := ExecuteAux behaviors nodes input_buf ts buf rest
        (r.1, ⟨ni, buf, false⟩ :: r.2)

/-- `GraphState::Execute`: run every dirty node in topological order, then
advance the instance timestamp.  Also returns the visit trace. -/
def GraphState.Execute (behaviors : Nat → Behavior) (st : GraphState) :
    GraphState × List TraceEntry :=
  let r := ExecuteAux behaviors st.graph.nodes st.graph.input_buffer
    st.timestamp st.output_buffer st.graph.sorted_nodes
  ({ st with output_buffer := r.1, timestamp := (st.timestamp + 1) % TsMod }, r.2)

/-- The node indices whose `Execute` callback was invoked, in visit order. -/
def invokedOf (tr : List TraceEntry) : List Nat :=
  (tr.filter (·.invoked)).map (·.node_index)

/-- The buffer initialization of `GraphState::Initialize` for one node's
connected output edges: construct each timestamp slot as 0 and
placement-new each non-void data slot. -/
def initNodeOutputs (buf : Buf) (node : Node) : Buf :=
  (node.output_edges.zip node.signature.output_parameters).foldl
    (fun b p =>
      if p.1.connected then
        let b1 := b.write p.1.timestamp_offset (.ts 0)
        if p.2.size > 0 then b1.write p.1.data_offset (.defaultOf p.2.name) else b1
      else b)
    buf

/-- The listener construction of `GraphState::Initialize` for one node:
`new (ptr) NodeEventListener(this, event_id)` (timestamp 0). -/
def initNodeListeners (buf : Buf) (node : Node) : Buf :=
  (node.listener_offsets.zip node.signature.event_listeners).foldl
    (fun b p => b.write p.1 (.listener 0 p.2)) buf

/-- The loop of `GraphState::Initialize` running every node's `Initialize`
callback in topological order (unconditionally, with timestamp 0). -/
def InitRunAux (behaviors : Nat → Behavior) (nodes : List Node)
    (input_buf : Buf) : Buf → List Nat → Buf
  | buf, [] => buf
  | buf, ni :: rest =>
    match nodes[ni]? with
    | none => InitRunAux behaviors nodes input_buf buf rest
    | some node =>
      let actions := behaviors ni node nodes input_buf buf 0
      InitRunAux behaviors nodes input_buf (actions.foldl (applyAction node 0) buf) rest

/-- `GraphState::Initialize` (graph_state.cpp): asserts the graph is
finalized (modelled as `none`), allocates the zeroed per-instance buffer,
constructs output timestamps/values and listeners, runs every node's
`Initialize` callback in topological order, and advances the timestamp to 1. -/
def GraphState.InitState (behaviors : Nat → Behavior) (g : Graph) :
    Option GraphState :=
  if g.nodes_finalized then
    let buf0 := g.nodes.foldl (fun b n => initNodeListeners (initNodeOutputs b n) n) Buf.zero
    let buf1 := InitRunAux behaviors g.nodes g.input_buffer buf0 g.sorted_nodes
    some { graph := g, output_buffer := buf1, timestamp := 1 % TsMod }
  else none

/-- `Graph::SetDefaultValue<T>(node_index, edge_index, value)` (graph.h),
with `ty` standing for `TypeRegistry<T>::GetType()`.  The C++ first asserts
`nodes_finalized_`; the checks it then performs are exactly: node index in
range, edge index in range, declared type equality.  It never checks whether
the edge is connected. -/
def Graph.SetDefaultValue (g : Graph) (node_index edge_index : Nat)
    (ty : Ty) (value : Val) : Graph × Option LogMsg :=
  match g.nodes[node_index]? with
  | none =>
    (g, some (LogMsg.defaultNodeOutOfRange g.graph_name node_index g.nodes.length))
  | some node =>
    match node.input_edges[edge_index]? with
    | none =>
      (g, some (LogMsg.defaultEdgeOutOfRange g.graph_name node_index edge_index
                  node.input_edges.length))
    | some input_edge =>
      match node.signature.input_parameters[edge_index]? with
      | none => (g, some LogMsg.assertViolation)
      | some expected_type =>
        if ty ≠ expected_type then
          (g, some (LogMsg.defaultTypeMismatch g.graph_name node_index edge_index
                      ty.name expected_type.name))
        else
          ({ g with input_buffer := g.input_buffer.write input_edge.data_offset value },
           none)

/-! ### Event listeners and broadcasters (`event.cpp`)

A `NodeEventListener` lives in its instance's per-instance buffer and hangs
off at most one broadcaster list through an intrusive list node; membership in
some list is what `node.in_list()` reports.  The global list state of all
broadcasters is modelled as an association list keyed by
(broadcaster id, event id), and a listener object is identified by an id whose
declared event id is given by the environment `env`. -/

abbrev BroadcastWorld := List ((Nat × EventId) × List Nat)

/-- The list a key maps to (an absent key behaves as an empty list). -/
def lookupList (w : BroadcastWorld) (k : Nat × EventId) : List Nat :=
  match w.find? (fun p => decide (p.1 = k)) with
  | some p => p.2
  | none => []

/-- `listener->node.in_list()`: the listener is physically linked into some
broadcaster's list. -/
def inListB (w : BroadcastWorld) (l : Nat) : Bool :=
  w.any (fun p => p.2.contains l)

/-- `listener->node.remove()`: unlink the listener from whatever list holds
it. -/
def removeAll (w : BroadcastWorld) (l : Nat) : BroadcastWorld :=
  w.map (fun p => (p.1, p.2.filter (fun x => x ≠ l)))

/-- `listener_list.push_back(*listener)` on the list of key `k` (creating the
list if the key is new, as `map::insert` did). -/
def pushBack (w : BroadcastWorld) (k : Nat × EventId) (l : Nat) : BroadcastWorld :=
  if w.any (fun p => decide (p.1 = k)) then
    w.map (fun p => if p.1 = k then (p.1, p.2 ++ [l]) else p)
  else w ++ [(k, [l])]

/-- `NodeEventBroadcaster::RegisterListener` on broadcaster `b` for listener
`l` (whose declared event id is `env l`): find-or-create the destination
list; if the listener is in some list but not the destination one, remove it
first; push it back unless it was already in the destination list. -/
def RegisterListener (env : Nat → EventId) (w : BroadcastWorld) (b l : Nat) :
    BroadcastWorld :=
  let key := (b, env l)
  let w0 := if w.any (fun p => decide (p.1 = key)) then w else w ++ [(key, [])]
  let dest := lookupList w0 key
  if inListB w0 l then
    if dest.contains l then w0
    else pushBack (removeAll w0 l) key l
  else pushBack w0 key l

/-- A world of graph instances with the listener references a broadcaster
holds: per event id, the list of (instance index, listener slot offset). -/
structure BState where
  insts : List GraphState
  lists : List (EventId × List (Nat × Nat))

/-- One iteration of `NodeEventBroadcaster::BroadcastEvent`:
`listener_iter->MarkDirty()` stamps the listener with its owning instance's
current timestamp, then `listener_iter->graph_state()->Execute()` drives that
instance. -/
def broadcastStep (behaviors : Nat → Nat → Behavior) (insts : List GraphState)
    (r : Nat × Nat) : List GraphState :=
  match insts[r.1]? with
  | none => insts
  | some st =>
    let stamped := { st with
      output_buffer := st.output_buffer.write r.2 ((st.output_buffer r.2).stampListener st.timestamp) }
    let st2 := (GraphState.Execute (behaviors r.1) stamped).1
    updateNth (fun _ => st2) r.1 insts

/-- `NodeEventBroadcaster::BroadcastEvent(event_id)`: for every listener
registered under the event id, mark it dirty and drive its instance's
`Execute`. -/
def BroadcastEvent (behaviors : Nat → Nat → Behavior) (s : BState)
    (event_id : EventId) : BState :=
  match s.lists.find? (fun p => decide (p.1 = event_id)) with
  | none => s
  | some p => { s with insts := p.2.foldl (broadcastStep behaviors) s.insts }

/-! ### Concrete scenarios used as witnesses and counterexamples -/

/-- A 4-byte, 4-aligned "int" type descriptor. -/
def intTy : Ty := ⟨"int", 4, 4⟩

/-- A second, distinct type descriptor. -/
def floatTy : Ty := ⟨"float", 4, 4⟩

/-- A fresh connected input edge wired to output `oi` of node `ni`
(`InputEdge::SetTarget` on a default-constructed edge). -/
def connectedTo (ni oi : Nat) : InputEdge := InputEdge.SetTarget {} ni oi

/-- The chain scenario: A(0) → B(1) → C(2) with an unrelated node D(3).
B's input reads A's output, C's input reads B's output. -/
def chainGraph : Graph :=
  { graph_name := "chain",
    nodes :=
      [ { signature := ⟨"m", "A", [], [intTy], []⟩ },
        { signature := ⟨"m", "B", [intTy], [intTy], []⟩, input_edges := [connectedTo 0 0] },
        { signature := ⟨"m", "C", [intTy], [], []⟩, input_edges := [connectedTo 1 0] },
        { signature := ⟨"m", "D", [], [], []⟩ } ] }

/-- The chain graph after `FinalizeNodes`. -/
def chainFinal : Graph := (Graph.FinalizeNodes chainGraph).1

/-- Node A writes its (connected) output when executed. -/
def behWriteOut : Behavior := fun _ _ _ _ _ => [.setOutput 0 (.intV 5)]

/-- A behaviour that performs no `SetOutput` calls. -/
def behSilent : Behavior := fun _ _ _ _ _ => []

/-- Behaviours for the chain scenario in which both A and B write their
connected outputs when executed. -/
def chainBehaviorsAB : Nat → Behavior :=
  fun ni => if ni = 0 then behWriteOut else if ni = 1 then behWriteOut else behSilent

/-- Behaviours in which only A writes an output; B's callback writes
nothing. -/
def chainBehaviorsA : Nat → Behavior :=
  fun ni => if ni = 0 then behWriteOut else behSilent

/-- The chain instance at the start of an `Execute` pass in which only node A
is dirty: A's own dirty-timestamp slot (offset 0) holds the current
timestamp 1, everything else is as `Initialize` left it. -/
def chainState : GraphState :=
  { graph := chainFinal, output_buffer := Buf.zero.write 0 (.ts 1), timestamp := 1 }

/-- A two-node cycle with matching types (node 0 also has an unconnected
input, so the default-value buffer is populated before the cycle is
detected). -/
def cycleGraph : Graph :=
  { graph_name := "cycle",
    nodes :=
      [ { signature := ⟨"m", "X", [intTy, intTy], [intTy], []⟩,
          input_edges := [connectedTo 1 0, {}] },
        { signature := ⟨"m", "Y", [intTy], [intTy], []⟩,
          input_edges := [connectedTo 0 0] } ] }

/-- A graph whose only flaw is one type-mismatched connection:
node 1's int input is wired to node 0's float output. -/
def mismatchGraph : Graph :=
  { graph_name := "mismatch",
    nodes :=
      [ { signature := ⟨"m", "F", [], [floatTy], []⟩ },
        { signature := ⟨"m", "G", [intTy], [], []⟩, input_edges := [connectedTo 0 0] } ] }

/-- A graph with the same type-mismatched connection, plus an earlier node
whose edge count is wrong: `FinalizeNodes` fails on the edge count before the
sort ever reaches the mismatched edge. -/
def mismatchPreemptedGraph : Graph :=
  { graph_name := "preempted",
    nodes :=
      [ { signature := ⟨"m", "E", [intTy], [], []⟩, input_edges := [] },
        { signature := ⟨"m", "F", [], [floatTy], []⟩ },
        { signature := ⟨"m", "G", [intTy], [], []⟩, input_edges := [connectedTo 1 0] } ] }

/-- The `SetDefaultValue` aliasing scenario: node 1's first input is
unconnected (it receives default-value offset 0) and its second input is
connected to node 0's output (its `data_offset` keeps its constructed
value 0). -/
def aliasGraph : Graph :=
  { graph_name := "alias",
    nodes :=
      [ { signature := ⟨"m", "S", [], [intTy], []⟩ },
        { signature := ⟨"m", "T", [intTy, intTy], [], []⟩,
          input_edges := [{}, connectedTo 0 0] } ] }

/-- The alias scenario after `FinalizeNodes`. -/
def aliasFinal : Graph := (Graph.FinalizeNodes aliasGraph).1

/-! ### Claim C5: the SetOutput contract -/

/-- C5: for every node and output index, `SetOutput` on an unconnected output
edge leaves the per-instance buffer entirely unchanged; on a connected edge it
stores the value at the edge's data offset, sets the edge's timestamp slot to
the current timestamp, and touches nothing else; and the signal-only overload
on a connected edge writes only the timestamp slot. -/
theorem setOutput_contract (node : Node) (buf : Buf) (ts : Nat) (idx : Nat)
    (oe : OutputEdge) (v : Val)
    (h : node.output_edges[idx]? = some oe)
    (hne : oe.timestamp_offset ≠ oe.data_offset) :
    (oe.connected = false →
       NodeArguments.SetOutput node buf ts idx v = buf ∧
       NodeArguments.SetOutputSignal node buf ts idx = buf) ∧
    (oe.connected = true →
       NodeArguments.SetOutput node buf ts idx v oe.data_offset = v ∧
       NodeArguments.SetOutput node buf ts idx v oe.timestamp_offset = .ts ts ∧
       (∀ o, o ≠ oe.data_offset → o ≠ oe.timestamp_offset →
          NodeArguments.SetOutput node buf ts idx v o = buf o)) ∧
    (oe.connected = true →
       NodeArguments.SetOutputSignal node buf ts idx oe.timestamp_offset = .ts ts ∧
       (∀ o, o ≠ oe.timestamp_offset →
          NodeArguments.SetOutputSignal node buf ts idx o = buf o)) := by
  refine ⟨fun hc => ?_, fun hc => ?_, fun hc => ?_⟩
  · simp [NodeArguments.SetOutput, NodeArguments.SetOutputSignal, h, hc]
  · refine ⟨?_, ?_, fun o ho1 ho2 => ?_⟩
    · simp [NodeArguments.SetOutput, h, hc]
    · simp [NodeArguments.SetOutput, h, hc, Buf.write_other _ _ _ _ hne]
    · simp [NodeArguments.SetOutput, h, hc, Buf.write_other _ _ _ _ ho1,
        Buf.write_other _ _ _ _ ho2]
  · refine ⟨?_, fun o ho => ?_⟩
    · simp [NodeArguments.SetOutputSignal, h, hc]
    · simp [NodeArguments.SetOutputSignal, h, hc, Buf.write_other _ _ _ _ ho]

/-- A one-output node used to witness the SetOutput contract. -/
def witnessNode : Node :=
  { signature := ⟨"m", "W", [], [intTy], []⟩,
    output_edges := [{ connected := true, timestamp_offset := 4, data_offset := 8 }] }

/-- Witness for C5 at a concrete node, edge and buffer. -/
theorem setOutput_contract_witness :
    NodeArguments.SetOutput witnessNode Buf.zero 3 0 (.intV 9) 8 = .intV 9 ∧
    NodeArguments.SetOutput witnessNode Buf.zero 3 0 (.intV 9) 4 = .ts 3 ∧
    NodeArguments.SetOutput witnessNode Buf.zero 3 0 (.intV 9) 12 = Buf.zero 12 ∧
    NodeArguments.SetOutputSignal witnessNode Buf.zero 3 0 8 = Buf.zero 8 := by
  have h := setOutput_contract witnessNode Buf.zero 3 0
    { connected := true, timestamp_offset := 4, data_offset := 8 } (.intV 9)
    (by decide) (by decide)
  refine ⟨(h.2.1 rfl).1, (h.2.1 rfl).2.1, (h.2.1 rfl).2.2 12 (by decide) (by decide),
    (h.2.2 rfl).2 8 (by decide)⟩

/-! ### Claim C4: single-pass dirty propagation on the chain -/

/-- Counterexample to C4 as stated: in the finalized A→B→C chain with
unrelated node D, with only node A dirty at the start of the pass and node A
writing its connected output, node C's Execute callback is nevertheless not
invoked when node B's callback happens to write nothing — the claim's
hypotheses hold but its conclusion fails. -/
theorem chain_no_c_without_b_write :
    (Graph.FinalizeNodes chainGraph).2.2 = true ∧
    chainFinal.sorted_nodes = [0, 1, 2, 3] ∧
    (chainFinal.nodes.map
      (IsDirtyB chainFinal.nodes chainState.output_buffer chainState.timestamp))
      = [true, false, false, false] ∧
    (GraphState.Execute chainBehaviorsA chainState).1.output_buffer 8 = .intV 5 ∧
    invokedOf (GraphState.Execute chainBehaviorsA chainState).2 = [0, 1] := by
  decide

/-- C4 as amended: in the same scenario, when node B also writes its
connected output upon executing, nodes A, B and C are all invoked within the
single Execute pass, in the order A, B, C, and the unrelated node D is not
invoked. -/
theorem chain_single_pass_propagation :
    (Graph.FinalizeNodes chainGraph).2.2 = true ∧
    chainFinal.sorted_nodes = [0, 1, 2, 3] ∧
    (chainFinal.nodes.map
      (IsDirtyB chainFinal.nodes chainState.output_buffer chainState.timestamp))
      = [true, false, false, false] ∧
    invokedOf (GraphState.Execute chainBehaviorsAB chainState).2 = [0, 1, 2] ∧
    3 ∉ invokedOf (GraphState.Execute chainBehaviorsAB chainState).2 := by
  decide

/-! ### Claim C6: what a failing FinalizeNodes mutates -/

/-- `SortGraphNodes` never touches `nodes_finalized_`. -/
theorem sortGraphNodes_finalized (g : Graph) :
    (Graph.SortGraphNodes g).1.nodes_finalized = g.nodes_finalized := by
  simp only [Graph.SortGraphNodes]

/-- A failing `FinalizeNodes` never touches `nodes_finalized_`: every failure
exit returns the graph with that flag as it was. -/
theorem finalize_fail_preserves_flag (g : Graph)
    (h : (Graph.FinalizeNodes g).2.2 = false) :
    (Graph.FinalizeNodes g).1.nodes_finalized = g.nodes_finalized := by
  rcases hp : phase1Nodes g.graph_name (resizeOutputEdges g.nodes) 0
      (List.range (resizeOutputEdges g.nodes).length) with ⟨nodes1, isz, err⟩
  unfold Graph.FinalizeNodes at h ⊢
  rw [hp] at h ⊢
  cases err with
  | some m => rfl
  | none =>
    dsimp only at h ⊢
    unfold finalizeSort at h ⊢
    rcases hs : Graph.SortGraphNodes (finalizeLayout g nodes1 isz) with ⟨g3, log, b⟩
    cases b
    · have hf := sortGraphNodes_finalized (finalizeLayout g nodes1 isz)
      rw [hs] at hf
      exact hf
    · rw [hs] at h
      exact Bool.noConfusion (show true = false from h)

/-- C6 as amended: whenever `FinalizeNodes` fails it returns `false` and
leaves `nodes_finalized_` unchanged (so a fresh graph is never marked
finalized by a failing call) — but, contrary to the claim as stated, layout
state may already have been mutated by the time the failure is detected (see
the counterexample). -/
theorem finalize_fail_not_finalized (g : Graph)
    (h : (Graph.FinalizeNodes g).2.2 = false) :
    (Graph.FinalizeNodes g).1.nodes_finalized = g.nodes_finalized :=
  finalize_fail_preserves_flag g h

/-- Witness for the amended C6 at a concrete failing graph. -/
theorem finalize_fail_not_finalized_witness :
    (Graph.FinalizeNodes mismatchGraph).2.2 = false ∧
    (Graph.FinalizeNodes mismatchGraph).1.nodes_finalized = mismatchGraph.nodes_finalized :=
  ⟨by decide, finalize_fail_not_finalized mismatchGraph (by decide)⟩

/-- Counterexample to C6 as stated: on the two-node cycle, `FinalizeNodes`
fails (with the cycle diagnostic), yet by then it has already marked output
edges connected, assigned buffer offsets, initialized and populated the
default-value buffer, and recorded `output_buffer_size_` — only
`nodes_finalized_` is left unset. -/
theorem finalize_cycle_mutates_layout :
    (Graph.FinalizeNodes cycleGraph).2.2 = false ∧
    (Graph.FinalizeNodes cycleGraph).2.1 = [LogMsg.circularDependency] ∧
    ((Graph.FinalizeNodes cycleGraph).1.nodes.map
      (fun n => n.output_edges.map (·.connected))) = [[true], [true]] ∧
    (Graph.FinalizeNodes cycleGraph).1.output_buffer_size = 24 ∧
    (Graph.FinalizeNodes cycleGraph).1.input_buffer_size = 4 ∧
    (Graph.FinalizeNodes cycleGraph).1.input_buffer 0 = .defaultOf "int" ∧
    (Graph.FinalizeNodes cycleGraph).1.nodes_finalized = false := by
  decide

/-! ### Claim C9: listener list membership -/

/-- Total number of occurrences of listener `l` across all broadcaster
lists. -/
def countIn (w : BroadcastWorld) (l : Nat) : Nat :=
  (w.map (fun p => p.2.count l)).sum

/-- The association-list keys (broadcaster, event id) are distinct; this is
an invariant of `std::map`. -/
def keysNodup (w : BroadcastWorld) : Prop := (w.map (·.1)).Nodup

/-- The intrusive-list well-formedness of the broadcaster world. -/
def WorldInv (w : BroadcastWorld) : Prop :=
  keysNodup w ∧ ∀ x, countIn w x ≤ 1

theorem worldInv_nil : WorldInv [] := ⟨List.nodup_nil, fun _ => Nat.zero_le 1⟩

theorem countIn_cons (p : (Nat × EventId) × List Nat) (w : BroadcastWorld) (l : Nat) :
    countIn (p :: w) l = p.2.count l + countIn w l := by
  simp [countIn]

theorem countIn_append (w w' : BroadcastWorld) (l : Nat) :
    countIn (w ++ w') l = countIn w l + countIn w' l := by
  simp [countIn]

theorem inListB_false_count (w : BroadcastWorld) (l : Nat)
    (h : inListB w l = false) : countIn w l = 0 := by
  induction w with
  | nil => rfl
  | cons p rest ih =>
    simp only [inListB, List.any_cons, Bool.or_eq_false_iff] at h
    rw [countIn_cons]
    have h1 : l ∉ p.2 := by
      intro hm
      have h2 := List.elem_eq_true_of_mem hm
      have h3 : List.elem l p.2 = false := h.1
      rw [h3] at h2
      exact Bool.noConfusion h2
    rw [List.count_eq_zero.mpr h1, ih (by simpa [inListB] using h.2)]

theorem count_filter_ne_self (l : Nat) (xs : List Nat) :
    (xs.filter (fun x => x ≠ l)).count l = 0 := by
  rw [List.count_eq_zero]
  intro hm
  have := List.of_mem_filter hm
  simp at this

theorem count_filter_ne_other (l x : Nat) (hx : x ≠ l) (xs : List Nat) :
    (xs.filter (fun y => y ≠ l)).count x = xs.count x := by
  induction xs with
  | nil => rfl
  | cons y ys ih =>
    simp only [decide_not] at ih
    by_cases hy : y = l
    · subst hy
      simp [List.filter_cons, List.count_cons, ih, Ne.symm hx, decide_not]
    · simp [List.filter_cons, List.count_cons, ih, hy, decide_not]

theorem countIn_removeAll_self (w : BroadcastWorld) (l : Nat) :
    countIn (removeAll w l) l = 0 := by
  induction w with
  | nil => rfl
  | cons p rest ih =>
    simp only [removeAll, List.map_cons] at ih ⊢
    rw [countIn_cons, count_filter_ne_self, ih]

theorem countIn_removeAll_other (w : BroadcastWorld) (l x : Nat) (hx : x ≠ l) :
    countIn (removeAll w l) x = countIn w x := by
  induction w with
  | nil => rfl
  | cons p rest ih =>
    simp only [removeAll, List.map_cons] at ih ⊢
    rw [countIn_cons, countIn_cons, count_filter_ne_other l x hx, ih]

theorem keysNodup_removeAll (w : BroadcastWorld) (l : Nat) (h : keysNodup w) :
    keysNodup (removeAll w l) := by
  simpa [keysNodup, removeAll, List.map_map, Function.comp] using h

/-- When no entry has key `k`, the `pushBack` rewrite map is the identity. -/
theorem pushBack_map_id (w : BroadcastWorld) (k : Nat × EventId) (l : Nat)
    (h : ∀ p ∈ w, p.1 ≠ k) :
    w.map (fun p => if p.1 = k then (p.1, p.2 ++ [l]) else p) = w := by
  induction w with
  | nil => rfl
  | cons p rest ih =>
    simp only [List.map_cons]
    rw [if_neg (h p (List.mem_cons_self p rest)),
      ih (fun q hq => h q (List.mem_cons_of_mem p hq))]

theorem countIn_mapAppend (w : BroadcastWorld) (k : Nat × EventId) (l x : Nat)
    (hk : keysNodup w) (hany : w.any (fun p => decide (p.1 = k)) = true) :
    countIn (w.map (fun p => if p.1 = k then (p.1, p.2 ++ [l]) else p)) x
      = countIn w x + List.count x [l] := by
  induction w with
  | nil => simp at hany
  | cons p rest ih =>
    simp only [List.any_cons, Bool.or_eq_true] at hany
    by_cases hp : p.1 = k
    · have hrest : ∀ q ∈ rest, q.1 ≠ k := by
        intro q hq hqk
        have hm : p.1 ∈ rest.map (·.1) := by
          rw [hp, ← hqk]
          exact List.mem_map_of_mem _ hq
        exact (List.nodup_cons.mp hk).1 hm
      simp only [List.map_cons, if_pos hp]
      rw [pushBack_map_id rest k l hrest, countIn_cons, countIn_cons,
        List.count_append]
      omega
    · have hany' : rest.any (fun p => decide (p.1 = k)) = true := by
        rcases hany with h1 | h1
        · exact absurd (of_decide_eq_true h1) hp
        · exact h1
      simp only [List.map_cons, if_neg hp]
      rw [countIn_cons, countIn_cons, ih (List.Nodup.of_cons hk) hany']
      omega

theorem countIn_pushBack_self (w : BroadcastWorld) (k : Nat × EventId) (l : Nat)
    (hk : keysNodup w) :
    countIn (pushBack w k l) l = countIn w l + 1 := by
  unfold pushBack
  by_cases hany : w.any (fun p => decide (p.1 = k)) = true
  · rw [if_pos hany, countIn_mapAppend w k l l hk hany]
    simp
  · rw [if_neg hany, countIn_append]
    simp [countIn]

theorem countIn_pushBack_other (w : BroadcastWorld) (k : Nat × EventId) (l x : Nat)
    (hx : x ≠ l) (hk : keysNodup w) :
    countIn (pushBack w k l) x = countIn w x := by
  unfold pushBack
  by_cases hany : w.any (fun p => decide (p.1 = k)) = true
  · rw [if_pos hany, countIn_mapAppend w k l x hk hany]
    simp [List.count_singleton', hx]
  · rw [if_neg hany, countIn_append]
    simp [countIn, List.count_singleton', hx]

theorem keysNodup_pushBack (w : BroadcastWorld) (k : Nat × EventId) (l : Nat)
    (hk : keysNodup w) : keysNodup (pushBack w k l) := by
  unfold pushBack
  by_cases hany : w.any (fun p => decide (p.1 = k)) = true
  · rw [if_pos hany]
    have : (w.map (fun p => if p.1 = k then (p.1, p.2 ++ [l]) else p)).map (·.1)
        = w.map (·.1) := by
      rw [List.map_map]
      refine List.map_congr_left ?_
      intro p _
      by_cases hp : p.1 = k <;> simp [hp]
    unfold keysNodup
    rw [this]
    exact hk
  · rw [if_neg hany]
    unfold keysNodup
    rw [List.map_append]
    simp only [List.map_cons, List.map_nil]
    refine List.Nodup.append hk (List.nodup_singleton _) ?_
    intro a ha hb
    simp only [List.mem_singleton] at hb
    subst hb
    rcases List.mem_map.mp ha with ⟨p, hp, hpk⟩
    exact hany (List.any_eq_true.mpr ⟨p, hp, by simp [hpk]⟩)


theorem mem_lookupList_found (w : BroadcastWorld) (k : Nat × EventId) (l : Nat)
    (h : l ∈ lookupList w k) :
    ∃ p ∈ w, p.1 = k ∧ l ∈ p.2 := by
  unfold lookupList at h
  rcases hf : w.find? (fun p => decide (p.1 = k)) with _ | p
  · rw [hf] at h
    cases h
  · rw [hf] at h
    have hpk := List.find?_some hf
    exact ⟨p, List.mem_of_find?_eq_some hf, of_decide_eq_true hpk, h⟩

theorem inListB_of_mem_lookupList (w : BroadcastWorld) (k : Nat × EventId) (l : Nat)
    (h : l ∈ lookupList w k) : inListB w l = true := by
  rcases mem_lookupList_found w k l h with ⟨p, hp, _, hl⟩
  exact List.any_eq_true.mpr ⟨p, hp, List.elem_eq_true_of_mem hl⟩

theorem countIn_pos_of_mem_lookupList (w : BroadcastWorld) (k : Nat × EventId) (l : Nat)
    (h : l ∈ lookupList w k) : 1 ≤ countIn w l := by
  rcases mem_lookupList_found w k l h with ⟨p, hp, _, hl⟩
  have h1 : 1 ≤ p.2.count l := List.one_le_count_iff.mpr hl
  have h2 : p.2.count l ∈ w.map (fun p => p.2.count l) := List.mem_map_of_mem _ hp
  calc 1 ≤ p.2.count l := h1
  _ ≤ countIn w l := List.le_sum_of_mem h2

theorem any_of_mem_lookupList (w : BroadcastWorld) (k : Nat × EventId) (l : Nat)
    (h : l ∈ lookupList w k) : w.any (fun p => decide (p.1 = k)) = true := by
  rcases mem_lookupList_found w k l h with ⟨p, hp, hk, _⟩
  exact List.any_eq_true.mpr ⟨p, hp, by simp [hk]⟩

theorem mem_lookupList_pushBack (w : BroadcastWorld) (k : Nat × EventId) (l : Nat) :
    l ∈ lookupList (pushBack w k l) k := by
  unfold pushBack
  by_cases hany : w.any (fun p => decide (p.1 = k)) = true
  · rw [if_pos hany]
    induction w with
    | nil => simp at hany
    | cons p rest ih =>
      simp only [List.any_cons, Bool.or_eq_true] at hany
      by_cases hp : p.1 = k
      · simp [lookupList, List.find?_cons, hp]
      · have hany' : rest.any (fun p => decide (p.1 = k)) = true := by
          rcases hany with h1 | h1
          · exact absurd (of_decide_eq_true h1) hp
          · exact h1
        simpa [lookupList, List.find?_cons, hp] using ih hany'
  · rw [if_neg hany]
    have hnone : w.find? (fun p => decide (p.1 = k)) = none := by
      rw [List.find?_eq_none]
      intro p hp
      simp only [decide_eq_true_eq]
      intro hpk
      exact hany (List.any_eq_true.mpr ⟨p, hp, by simp [hpk]⟩)
    unfold lookupList
    rw [List.find?_append, hnone]
    simp [List.find?_cons]

/-- Appending a fresh empty list for a new key (the `map::insert` inside
`RegisterListener`) changes no membership or counts. -/
theorem countIn_append_empty (w : BroadcastWorld) (k : Nat × EventId) (x : Nat) :
    countIn (w ++ [(k, [])]) x = countIn w x := by
  rw [countIn_append]
  simp [countIn]

theorem inListB_append_empty (w : BroadcastWorld) (k : Nat × EventId) (l : Nat) :
    inListB (w ++ [(k, [])]) l = inListB w l := by
  unfold inListB
  rw [List.any_append]
  simp [List.any_cons]

theorem keysNodup_append_empty (w : BroadcastWorld) (k : Nat × EventId)
    (hk : keysNodup w) (hany : ¬ w.any (fun p => decide (p.1 = k)) = true) :
    keysNodup (w ++ [(k, [])]) := by
  unfold keysNodup
  rw [List.map_append]
  simp only [List.map_cons, List.map_nil]
  refine List.Nodup.append hk (List.nodup_singleton _) ?_
  intro a ha hb
  simp only [List.mem_singleton] at hb
  subst hb
  rcases List.mem_map.mp ha with ⟨p, hp, hpk⟩
  exact hany (List.any_eq_true.mpr ⟨p, hp, by simp [hpk]⟩)

/-- The find-or-create step at the head of `RegisterListener`. -/
def findOrCreate (w : BroadcastWorld) (k : Nat × EventId) : BroadcastWorld :=
  if w.any (fun p => decide (p.1 = k)) then w else w ++ [(k, [])]

theorem keysNodup_findOrCreate (w : BroadcastWorld) (k : Nat × EventId)
    (hk : keysNodup w) : keysNodup (findOrCreate w k) := by
  unfold findOrCreate
  by_cases hany : w.any (fun p => decide (p.1 = k)) = true
  · rwa [if_pos hany]
  · rw [if_neg hany]
    exact keysNodup_append_empty w k hk hany

theorem countIn_findOrCreate (w : BroadcastWorld) (k : Nat × EventId) (x : Nat) :
    countIn (findOrCreate w k) x = countIn w x := by
  unfold findOrCreate
  by_cases hany : w.any (fun p => decide (p.1 = k)) = true
  · rw [if_pos hany]
  · rw [if_neg hany]
    exact countIn_append_empty w k x

theorem inListB_findOrCreate (w : BroadcastWorld) (k : Nat × EventId) (l : Nat) :
    inListB (findOrCreate w k) l = inListB w l := by
  unfold findOrCreate
  by_cases hany : w.any (fun p => decide (p.1 = k)) = true
  · rw [if_pos hany]
  · rw [if_neg hany]
    exact inListB_append_empty w k l

/-- `RegisterListener` written through `findOrCreate` (definitionally the
same function). -/
theorem registerListener_eq (env : Nat → EventId) (w : BroadcastWorld) (b l : Nat) :
    RegisterListener env w b l =
      (if inListB (findOrCreate w (b, env l)) l then
        (if (lookupList (findOrCreate w (b, env l)) (b, env l)).contains l then
          findOrCreate w (b, env l)
         else pushBack (removeAll (findOrCreate w (b, env l)) l) (b, env l) l)
       else pushBack (findOrCreate w (b, env l)) (b, env l) l) := rfl

/-- `RegisterListener` preserves the world invariant. -/
theorem registerListener_worldInv (env : Nat → EventId) (w : BroadcastWorld)
    (b l : Nat) (h : WorldInv w) : WorldInv (RegisterListener env w b l) := by
  rcases h with ⟨hk, hc⟩
  rw [registerListener_eq]
  set w0 := findOrCreate w (b, env l) with hw0
  have hk0 : keysNodup w0 := keysNodup_findOrCreate w _ hk
  have hc0 : ∀ x, countIn w0 x ≤ 1 := fun x => (countIn_findOrCreate w _ x) ▸ hc x
  by_cases hin : inListB w0 l = true
  · rw [if_pos hin]
    by_cases hfound : (lookupList w0 (b, env l)).contains l = true
    · rw [if_pos hfound]
      exact ⟨hk0, hc0⟩
    · rw [if_neg hfound]
      refine ⟨keysNodup_pushBack _ _ _ (keysNodup_removeAll _ _ hk0), fun x => ?_⟩
      by_cases hx : x = l
      · subst hx
        rw [countIn_pushBack_self _ _ _ (keysNodup_removeAll _ _ hk0),
          countIn_removeAll_self]
      · rw [countIn_pushBack_other _ _ _ _ hx (keysNodup_removeAll _ _ hk0),
          countIn_removeAll_other _ _ _ hx]
        exact hc0 x
  · rw [if_neg hin]
    refine ⟨keysNodup_pushBack _ _ _ hk0, fun x => ?_⟩
    by_cases hx : x = l
    · subst hx
      rw [countIn_pushBack_self _ _ _ hk0,
        inListB_false_count _ _ (Bool.not_eq_true _ ▸ hin)]
    · rw [countIn_pushBack_other _ _ _ _ hx hk0]
      exact hc0 x

/-- After `RegisterListener`, the listener sits in exactly one place: the
list of its broadcaster and declared event id. -/
theorem registerListener_result (env : Nat → EventId) (w : BroadcastWorld)
    (b l : Nat) (h : WorldInv w) :
    countIn (RegisterListener env w b l) l = 1 ∧
    l ∈ lookupList (RegisterListener env w b l) (b, env l) := by
  rcases h with ⟨hk, hc⟩
  rw [registerListener_eq]
  set w0 := findOrCreate w (b, env l) with hw0
  have hk0 : keysNodup w0 := keysNodup_findOrCreate w _ hk
  have hc0 : ∀ x, countIn w0 x ≤ 1 := fun x => (countIn_findOrCreate w _ x) ▸ hc x
  by_cases hin : inListB w0 l = true
  · rw [if_pos hin]
    by_cases hfound : (lookupList w0 (b, env l)).contains l = true
    · rw [if_pos hfound]
      have hmem : l ∈ lookupList w0 (b, env l) := List.mem_of_elem_eq_true hfound
      exact ⟨Nat.le_antisymm (hc0 l) (countIn_pos_of_mem_lookupList _ _ _ hmem), hmem⟩
    · rw [if_neg hfound]
      refine ⟨?_, mem_lookupList_pushBack _ _ _⟩
      rw [countIn_pushBack_self _ _ _ (keysNodup_removeAll _ _ hk0),
        countIn_removeAll_self]
  · rw [if_neg hin]
    refine ⟨?_, mem_lookupList_pushBack _ _ _⟩
    rw [countIn_pushBack_self _ _ _ hk0,
      inListB_false_count _ _ (Bool.not_eq_true _ ▸ hin)]

/-- `RegisterListener` is the identity when the listener is already in the
correct list. -/
theorem registerListener_idem (env : Nat → EventId) (w : BroadcastWorld)
    (b l : Nat) (hmem : l ∈ lookupList w (b, env l)) :
    RegisterListener env w b l = w := by
  have hany := any_of_mem_lookupList w (b, env l) l hmem
  have hw0 : findOrCreate w (b, env l) = w := by
    unfold findOrCreate
    rw [if_pos hany]
  rw [registerListener_eq, hw0,
    if_pos (inListB_of_mem_lookupList w _ l hmem),
    if_pos (List.elem_eq_true_of_mem hmem)]

/-- The world obtained by a sequence of `RegisterListener` calls
`(broadcaster, listener)` starting from no registrations. -/
def buildWorld (env : Nat → EventId) (calls : List (Nat × Nat)) : BroadcastWorld :=
  calls.foldl (fun w c => RegisterListener env w c.1 c.2) []

theorem buildWorld_worldInv (env : Nat → EventId) (calls : List (Nat × Nat)) :
    WorldInv (buildWorld env calls) := by
  suffices h : ∀ w, WorldInv w →
      WorldInv (calls.foldl (fun w c => RegisterListener env w c.1 c.2) w) by
    exact h [] worldInv_nil
  induction calls with
  | nil => exact fun w hw => hw
  | cons c rest ih =>
    intro w hw
    exact ih _ (registerListener_worldInv env w c.1 c.2 hw)

/-- C9: after any sequence of `RegisterListener` calls on any broadcasters,
every listener occurs in at most one event-id list (and at most once within
it); a further `RegisterListener` call leaves the listener in exactly the
list of its broadcaster and declared event id (removing it from wherever it
was); and the call is the identity when the listener is already in the
correct list. -/
theorem register_listener_unique_membership (env : Nat → EventId)
    (calls : List (Nat × Nat)) :
    (∀ x, countIn (buildWorld env calls) x ≤ 1) ∧
    (∀ b l, countIn (RegisterListener env (buildWorld env calls) b l) l = 1 ∧
      l ∈ lookupList (RegisterListener env (buildWorld env calls) b l) (b, env l)) ∧
    (∀ b l, l ∈ lookupList (buildWorld env calls) (b, env l) →
      RegisterListener env (buildWorld env calls) b l = buildWorld env calls) := by
  refine ⟨(buildWorld_worldInv env calls).2, fun b l => ?_, fun b l h => ?_⟩
  · exact registerListener_result env _ b l (buildWorld_worldInv env calls)
  · exact registerListener_idem env _ b l h

/-- Witness for C9: listener 1 is registered on broadcaster 0, then
re-registered on broadcaster 2; it ends up in exactly the latter's list, and
re-registering once more is the identity. -/
theorem register_listener_unique_membership_witness :
    countIn (buildWorld (fun _ => 0) [(0, 1), (2, 1)]) 1 ≤ 1 ∧
    countIn (RegisterListener (fun _ => 0) (buildWorld (fun _ => 0) [(0, 1), (2, 1)]) 2 1) 1 = 1 ∧
    RegisterListener (fun _ => 0) (buildWorld (fun _ => 0) [(0, 1), (2, 1)]) 2 1
      = buildWorld (fun _ => 0) [(0, 1), (2, 1)] := by
  refine ⟨(register_listener_unique_membership (fun _ => 0) [(0, 1), (2, 1)]).1 1,
    ((register_listener_unique_membership (fun _ => 0) [(0, 1), (2, 1)]).2.1 2 1).1,
    (register_listener_unique_membership (fun _ => 0) [(0, 1), (2, 1)]).2.2 2 1 (by decide)⟩

/-! ### Claim C1: a node executes iff it is dirty at the moment of its visit -/

/-- Condition (c) of the claim for one input edge: the edge is connected and
the output edge it targets has timestamp equal to the current timestamp. -/
def InputEdgeDirtySpec (nodes : List Node) (buf : Buf) (ts : Nat) (e : InputEdge) : Prop :=
  e.connected = true ∧ ∃ tnode oe, nodes[e.target.node_index]? = some tnode ∧
    tnode.output_edges[e.target.edge_index]? = some oe ∧
    (buf oe.timestamp_offset).tsVal = ts

/-- The claim's dirtiness disjunction, stated over a buffer: (a) the node's
own dirty-flag timestamp equals the current timestamp, or (b) some listener
of the node has timestamp equal to the current timestamp, or (c) some
connected input edge targets an output edge whose timestamp equals the
current timestamp. -/
def DirtyAtVisit (nodes : List Node) (buf : Buf) (ts : Nat) (node : Node) : Prop :=
  (buf node.timestamp_offset).tsVal = ts
  ∨ (∃ off ∈ node.listener_offsets, (buf off).listenerTs = ts)
  ∨ (∃ e ∈ node.input_edges, InputEdgeDirtySpec nodes buf ts e)

theorem inputEdge_match_iff (nodes : List Node) (buf : Buf) (ts : Nat) (e : InputEdge) :
    ((match nodes[e.target.node_index]? with
      | some tnode =>
        match tnode.output_edges[e.target.edge_index]? with
        | some oe => (buf oe.timestamp_offset).tsVal == ts
        | none => false
      | none => false) = true)
    ↔ (∃ tnode oe, nodes[e.target.node_index]? = some tnode ∧
        tnode.output_edges[e.target.edge_index]? = some oe ∧
        (buf oe.timestamp_offset).tsVal = ts) := by
  rcases h1 : nodes[e.target.node_index]? with _ | tnode
  · simp
  · rcases h2 : tnode.output_edges[e.target.edge_index]? with _ | oe
    · simp [h2]
    · simp [h2]

/-- The boolean `GraphState::IsDirty` decides exactly the claim's dirtiness
disjunction. -/
theorem isDirtyB_iff_dirtyAtVisit (nodes : List Node) (buf : Buf) (ts : Nat)
    (node : Node) :
    IsDirtyB nodes buf ts node = true ↔ DirtyAtVisit nodes buf ts node := by
  unfold IsDirtyB DirtyAtVisit
  simp only [Bool.or_eq_true, List.any_eq_true, beq_iff_eq, Bool.and_eq_true]
  constructor
  · rintro ((h | ⟨off, hoff, h⟩) | ⟨e, he, hc, h⟩)
    · exact Or.inl h
    · exact Or.inr (Or.inl ⟨off, hoff, h⟩)
    · exact Or.inr (Or.inr ⟨e, he, hc, (inputEdge_match_iff nodes buf ts e).mp h⟩)
  · rintro (h | ⟨off, hoff, h⟩ | ⟨e, he, hc, h⟩)
    · exact Or.inl (Or.inl h)
    · exact Or.inl (Or.inr ⟨off, hoff, h⟩)
    · exact Or.inr ⟨e, he, hc, (inputEdge_match_iff nodes buf ts e).mpr h⟩

theorem executeAux_trace_dirty (behaviors : Nat → Behavior) (nodes : List Node)
    (input_buf : Buf) (ts : Nat) (sorted : List Nat) :
    ∀ (buf : Buf), ∀ en ∈ (ExecuteAux behaviors nodes input_buf ts buf sorted).2,
      ∀ node, nodes[en.node_index]? = some node →
        (en.invoked = true ↔ DirtyAtVisit nodes en.buf ts node) := by
  induction sorted with
  | nil =>
    intro buf en hen
    cases hen
  | cons ni rest ih =>
    intro buf en hen node hnode
    unfold ExecuteAux at hen
    rcases h1 : nodes[ni]? with _ | nd
    · rw [h1] at hen
      exact ih buf en hen node hnode
    · rw [h1] at hen
      dsimp only at hen
      by_cases hd : IsDirtyB nodes buf ts nd = true
      · rw [if_pos hd] at hen
        simp only [List.mem_cons] at hen
        rcases hen with hen | hen
        · subst hen
          simp only at hnode ⊢
          rw [h1] at hnode
          injection hnode with hnd
          subst hnd
          simpa using (isDirtyB_iff_dirtyAtVisit nodes buf ts _).mp hd
        · exact ih _ en hen node hnode
      · rw [if_neg hd] at hen
        simp only [List.mem_cons] at hen
        rcases hen with hen | hen
        · subst hen
          simp only at hnode ⊢
          rw [h1] at hnode
          injection hnode with hnd
          subst hnd
          constructor
          · intro hfalse
            exact absurd hfalse (by decide)
          · intro hdv
            exact absurd ((isDirtyB_iff_dirtyAtVisit nodes buf ts _).mpr hdv) hd
        · exact ih _ en hen node hnode

/-- C1: in any `Execute` pass over a graph instance, a node's Execute
callback is invoked exactly when, at the moment the node is visited, its own
dirty-flag timestamp equals the instance's current timestamp, or one of its
listeners is stamped with the current timestamp, or a connected input edge
targets an output edge stamped with the current timestamp. -/
theorem execute_invokes_iff_dirty (behaviors : Nat → Behavior) (st : GraphState)
    (en : TraceEntry) (node : Node)
    (hen : en ∈ (GraphState.Execute behaviors st).2)
    (hnode : st.graph.nodes[en.node_index]? = some node) :
    en.invoked = true ↔ DirtyAtVisit st.graph.nodes en.buf st.timestamp node := by
  exact executeAux_trace_dirty behaviors st.graph.nodes st.graph.input_buffer
    st.timestamp st.graph.sorted_nodes st.output_buffer en hen node hnode

/-- Witness for C1 on the chain scenario: node 1 is visited after node 0
wrote its output, is recognized dirty and invoked. -/
theorem execute_invokes_iff_dirty_witness :
    ∃ en ∈ (GraphState.Execute chainBehaviorsAB chainState).2,
      en.node_index = 1 ∧ en.invoked = true ∧
      ∃ node, chainState.graph.nodes[en.node_index]? = some node ∧
        DirtyAtVisit chainState.graph.nodes en.buf chainState.timestamp node := by
  refine ⟨(GraphState.Execute chainBehaviorsAB chainState).2.get ⟨1, by decide⟩,
    List.get_mem _ _ _, by decide, by decide,
    chainFinal.nodes.get ⟨1, by decide⟩, by decide, ?_⟩
  exact (execute_invokes_iff_dirty chainBehaviorsAB chainState
    ((GraphState.Execute chainBehaviorsAB chainState).2.get ⟨1, by decide⟩)
    (chainFinal.nodes.get ⟨1, by decide⟩) (List.get_mem _ _ _) (by decide)).mp (by decide)

/-! ### Claim C8: broadcast stamps the listener and drives Execute -/

theorem mem_of_getElem?_some {α : Type _} {l : List α} {i : Nat} {a : α}
    (h : l[i]? = some a) : a ∈ l := by
  rcases List.getElem?_eq_some.mp h with ⟨hi, rfl⟩
  exact List.getElem_mem hi

/-- Offset `o` is disjoint from every output-edge slot of the graph's nodes
(listener slots are laid out this way by `FinalizeNodes`). -/
def SafeOffset (nodes : List Node) (o : Nat) : Prop :=
  ∀ n ∈ nodes, ∀ oe ∈ n.output_edges, oe.timestamp_offset ≠ o ∧ oe.data_offset ≠ o

instance (nodes : List Node) (o : Nat) : Decidable (SafeOffset nodes o) :=
  inferInstanceAs (Decidable (∀ n ∈ nodes, ∀ oe ∈ n.output_edges,
    oe.timestamp_offset ≠ o ∧ oe.data_offset ≠ o))

theorem setOutput_preserves_safe (node : Node) (buf : Buf) (ts i : Nat) (v : Val)
    (o : Nat) (h : ∀ oe ∈ node.output_edges, oe.timestamp_offset ≠ o ∧ oe.data_offset ≠ o) :
    NodeArguments.SetOutput node buf ts i v o = buf o := by
  unfold NodeArguments.SetOutput
  rcases he : node.output_edges[i]? with _ | oe
  · rfl
  · rcases h oe (mem_of_getElem?_some he) with ⟨h1, h2⟩
    by_cases hc : oe.connected <;>
      simp [hc, Buf.write, Ne.symm h1, Ne.symm h2]

theorem setOutputSignal_preserves_safe (node : Node) (buf : Buf) (ts i : Nat)
    (o : Nat) (h : ∀ oe ∈ node.output_edges, oe.timestamp_offset ≠ o ∧ oe.data_offset ≠ o) :
    NodeArguments.SetOutputSignal node buf ts i o = buf o := by
  unfold NodeArguments.SetOutputSignal
  rcases he : node.output_edges[i]? with _ | oe
  · rfl
  · rcases h oe (mem_of_getElem?_some he) with ⟨h1, _⟩
    by_cases hc : oe.connected <;> simp [hc, Buf.write, Ne.symm h1]

theorem applyAction_preserves_safe (node : Node) (ts : Nat) (buf : Buf) (a : Action)
    (o : Nat) (h : ∀ oe ∈ node.output_edges, oe.timestamp_offset ≠ o ∧ oe.data_offset ≠ o) :
    applyAction node ts buf a o = buf o := by
  cases a with
  | setOutput i v => exact setOutput_preserves_safe node buf ts i v o h
  | setOutputVoid i => exact setOutputSignal_preserves_safe node buf ts i o h

theorem foldl_applyAction_preserves_safe (node : Node) (ts : Nat) (o : Nat)
    (h : ∀ oe ∈ node.output_edges, oe.timestamp_offset ≠ o ∧ oe.data_offset ≠ o) :
    ∀ (acts : List Action) (buf : Buf),
      acts.foldl (applyAction node ts) buf o = buf o := by
  intro acts
  induction acts with
  | nil => intro buf; rfl
  | cons a rest ih =>
    intro buf
    rw [List.foldl_cons, ih (applyAction node ts buf a),
      applyAction_preserves_safe node ts buf a o h]

/-- Executing any pass leaves a safe offset untouched, both in the final
buffer and in every buffer recorded in the visit trace. -/
theorem executeAux_preserves_safe (behaviors : Nat → Behavior) (nodes : List Node)
    (input_buf : Buf) (ts : Nat) (o : Nat) (hsafe : SafeOffset nodes o)
    (sorted : List Nat) :
    ∀ buf : Buf,
      (ExecuteAux behaviors nodes input_buf ts buf sorted).1 o = buf o ∧
      (∀ en ∈ (ExecuteAux behaviors nodes input_buf ts buf sorted).2, en.buf o = buf o) := by
  induction sorted with
  | nil =>
    intro buf
    exact ⟨rfl, fun en hen => absurd hen (List.not_mem_nil en)⟩
  | cons ni rest ih =>
    intro buf
    unfold ExecuteAux
    rcases h1 : nodes[ni]? with _ | nd
    · exact ih buf
    · dsimp only
      by_cases hd : IsDirtyB nodes buf ts nd = true
      · rw [if_pos hd]
        have hnd : ∀ oe ∈ nd.output_edges, oe.timestamp_offset ≠ o ∧ oe.data_offset ≠ o :=
          hsafe nd (mem_of_getElem?_some h1)
        have hbuf' := foldl_applyAction_preserves_safe nd ts o hnd
          (behaviors ni nd nodes input_buf buf ts) buf
        refine ⟨?_, ?_⟩
        · rw [(ih _).1, hbuf']
        · intro en hen
          simp only [List.mem_cons] at hen
          rcases hen with hen | hen
          · subst hen
            rfl
          · rw [(ih _).2 en hen, hbuf']
      · rw [if_neg hd]
        refine ⟨(ih buf).1, ?_⟩
        intro en hen
        simp only [List.mem_cons] at hen
        rcases hen with hen | hen
        · subst hen
          rfl
        · exact (ih buf).2 en hen

/-- Splitting off the head of `List.drop` at a position known to hold `x`. -/
theorem drop_eq_cons_of_getElem {α : Type _} : ∀ (l : List α) (k : Nat) (x : α),
    l[k]? = some x → l.drop k = x :: l.drop (k + 1) := by
  intro l
  induction l with
  | nil =>
    intro k x h
    rw [List.getElem?_nil] at h
    cases h
  | cons a as ih =>
    intro k x h
    cases k with
    | zero =>
      rw [List.getElem?_cons_zero] at h
      injection h with h
      subst h
      rfl
    | succ k =>
      rw [List.getElem?_cons_succ] at h
      exact ih k x h

/-- A left fold evaluated up to, at, and after position `k`. -/
theorem foldl_split_at {α β : Type _} (f : β → α → β) (b : β) (l : List α) (k : Nat)
    (x : α) (hk : l[k]? = some x) :
    l.foldl f b = (l.drop (k + 1)).foldl f (f ((l.take k).foldl f b) x) := by
  conv_lhs => rw [← List.take_append_drop k l]
  rw [List.foldl_append, drop_eq_cons_of_getElem l k x hk, List.foldl_cons]

/-- One step of the broadcast walk on a present instance. -/
theorem broadcastStep_some (behaviors : Nat → Nat → Behavior)
    (insts : List GraphState) (i off : Nat) (st : GraphState)
    (hst : insts[i]? = some st) :
    broadcastStep behaviors insts (i, off)
      = updateNth (fun _ => (GraphState.Execute (behaviors i)
          { st with output_buffer :=
              st.output_buffer.write off ((st.output_buffer off).stampListener st.timestamp) }).1)
          i insts := by
  unfold broadcastStep
  dsimp only
  rw [hst]

/-- C8: broadcasting event `E` walks the whole list registered under `E`; the
listener at ANY position `k` of that list — living at slot `off` of instance
`i`, whose state at that point of the walk is `st` — is stamped with its
owning instance's current timestamp and that instance's `Execute` is driven
immediately, before the walk continues with the remaining listeners; during
the driven Execute the listener's `IsListenerDirty` reads true at every node
visit, and during the next Execute call on the same instance (after the
timestamp advance) it reads false. -/
theorem broadcast_marks_listener_and_drives_execute
    (behaviors : Nat → Nat → Behavior) (behaviors2 : Nat → Behavior)
    (s : BState) (E : EventId) (rs : List (Nat × Nat)) (k i off : Nat)
    (st : GraphState) (node : Node) (li : Nat) (t0 : Nat) (eid : EventId)
    (hlist : s.lists.find? (fun p => decide (p.1 = E)) = some (E, rs))
    (hk : rs[k]? = some (i, off))
    (hst : ((rs.take k).foldl (broadcastStep behaviors) s.insts)[i]? = some st)
    (hslot : st.output_buffer off = .listener t0 eid)
    (hli : node.listener_offsets[li]? = some off)
    (hsafe : SafeOffset st.graph.nodes off) :
    ∃ st2,
      st2 = (GraphState.Execute (behaviors i)
        { st with output_buffer :=
            st.output_buffer.write off (.listener st.timestamp eid) }).1 ∧
      broadcastStep behaviors ((rs.take k).foldl (broadcastStep behaviors) s.insts) (i, off)
        = updateNth (fun _ => st2) i ((rs.take k).foldl (broadcastStep behaviors) s.insts) ∧
      (BroadcastEvent behaviors s E).insts
        = (rs.drop (k + 1)).foldl (broadcastStep behaviors)
            (updateNth (fun _ => st2) i
              ((rs.take k).foldl (broadcastStep behaviors) s.insts)) ∧
      (∀ en ∈ (GraphState.Execute (behaviors i)
          { st with output_buffer :=
              st.output_buffer.write off (.listener st.timestamp eid) }).2,
        NodeArguments.IsListenerDirty node en.buf st.timestamp li = true) ∧
      (∀ en ∈ (GraphState.Execute behaviors2 st2).2,
        NodeArguments.IsListenerDirty node en.buf st2.timestamp li = false) := by
  have hstamp : (st.output_buffer off).stampListener st.timestamp
      = .listener st.timestamp eid := by
    rw [hslot]
    rfl
  have hstep : broadcastStep behaviors
        ((rs.take k).foldl (broadcastStep behaviors) s.insts) (i, off)
      = updateNth (fun _ => (GraphState.Execute (behaviors i)
          { st with output_buffer :=
              st.output_buffer.write off (.listener st.timestamp eid) }).1) i
          ((rs.take k).foldl (broadcastStep behaviors) s.insts) := by
    rw [broadcastStep_some behaviors _ i off st hst, hstamp]
  refine ⟨(GraphState.Execute (behaviors i)
    { st with output_buffer :=
        st.output_buffer.write off (.listener st.timestamp eid) }).1,
    rfl, hstep, ?_, ?_, ?_⟩
  · unfold BroadcastEvent
    rw [hlist]
    dsimp only
    rw [foldl_split_at (broadcastStep behaviors) s.insts rs k (i, off) hk, hstep]
  · intro en hen
    have hen_buf : en.buf off = .listener st.timestamp eid := by
      have h := (executeAux_preserves_safe (behaviors i) st.graph.nodes
        st.graph.input_buffer st.timestamp off hsafe st.graph.sorted_nodes
        (st.output_buffer.write off (.listener st.timestamp eid))).2 en hen
      rw [h, Buf.write_same]
    unfold NodeArguments.IsListenerDirty
    rw [hli]
    dsimp only
    rw [hen_buf]
    simp [Val.listenerTs]
  · intro en hen
    have hfinal : (GraphState.Execute (behaviors i)
        { st with output_buffer :=
            st.output_buffer.write off (.listener st.timestamp eid) }).1.output_buffer off
        = .listener st.timestamp eid := by
      have h := (executeAux_preserves_safe (behaviors i) st.graph.nodes
        st.graph.input_buffer st.timestamp off hsafe st.graph.sorted_nodes
        (st.output_buffer.write off (.listener st.timestamp eid))).1
      unfold GraphState.Execute
      dsimp only
      rw [h, Buf.write_same]
    have hen_buf : en.buf off = .listener st.timestamp eid := by
      have h := (executeAux_preserves_safe behaviors2 st.graph.nodes
        st.graph.input_buffer _ off hsafe st.graph.sorted_nodes _).2 en hen
      rw [h]
      exact hfinal
    unfold NodeArguments.IsListenerDirty
    rw [hli]
    dsimp only
    rw [hen_buf]
    have hne : st.timestamp ≠ (st.timestamp + 1) % TsMod := by
      show st.timestamp ≠ (st.timestamp + 1) % 4294967296
      omega
    simp only [Val.listenerTs]
    exact beq_eq_false_iff_ne.mpr hne

/-- The one-node scenario for the broadcast witness: the node listens for
event id 7, its listener slot is at offset 0. -/
def c8Node : Node :=
  { signature := ⟨"m", "L", [], [], [7]⟩, listener_offsets := [0] }

def c8Graph : Graph :=
  { graph_name := "listenerG", nodes := [c8Node], sorted_nodes := [0] }

def c8State : GraphState :=
  { graph := c8Graph, output_buffer := Buf.zero.write 0 (.listener 0 7), timestamp := 5 }

/-- A second instance of the same graph with its own listener and a different
current timestamp. -/
def c8StateB : GraphState :=
  { graph := c8Graph, output_buffer := Buf.zero.write 0 (.listener 0 7), timestamp := 3 }

/-- A world with two listeners registered under event id 9: instance 0's
listener first, then instance 1's. -/
def c8World : BState :=
  { insts := [c8State, c8StateB], lists := [(9, [(0, 0), (1, 0)])] }

/-- Instance 1 as stamped by the second iteration of the broadcast walk. -/
def c8Stamped : GraphState :=
  { c8StateB with
    output_buffer := c8StateB.output_buffer.write 0 (.listener c8StateB.timestamp 7) }

/-- Instance 1 after its driven Execute. -/
def c8Driven : GraphState := (GraphState.Execute (fun _ => behSilent) c8Stamped).1

/-- Witness for C8 on the concrete two-listener world, at the second listener
of the event's list (position 1, instance 1): that listener reads dirty at
the visit of its driven Execute and clean at the visit of the next one. -/
theorem broadcast_marks_listener_witness :
    NodeArguments.IsListenerDirty c8Node
      ((GraphState.Execute (fun _ => behSilent) c8Stamped).2.get ⟨0, by decide⟩).buf
      c8StateB.timestamp 0 = true ∧
    NodeArguments.IsListenerDirty c8Node
      ((GraphState.Execute (fun _ => behSilent) c8Driven).2.get ⟨0, by decide⟩).buf
      c8Driven.timestamp 0 = false := by
  rcases broadcast_marks_listener_and_drives_execute
      (fun _ _ => behSilent) (fun _ => behSilent) c8World 9 [(0, 0), (1, 0)] 1 1 0
      c8StateB c8Node 0 0 7 rfl rfl rfl rfl rfl (by decide)
    with ⟨st2, h2, hstep, hfold, h3, h4⟩
  have hst2 : st2 = c8Driven := h2
  constructor
  · exact h3 _ (List.get_mem _ _ _)
  · rw [hst2] at h4
    exact h4 _ (List.get_mem _ _ _)

/-! ### Preservation of the wiring across the FinalizeNodes phases -/

/-- What every phase of `FinalizeNodes` preserves about the wiring: per node
the signature and, per input edge, its connection state and target; the data
offset of a *connected* input edge is also preserved (offsets are only ever
assigned to unconnected edges). -/
def NodesPres (ns ns' : List Node) : Prop :=
  ns'.length = ns.length ∧
  ∀ (i : Nat) (n' : Node), ns'[i]? = some n' → ∃ n, ns[i]? = some n ∧
    n'.signature = n.signature ∧
    n'.input_edges.length = n.input_edges.length ∧
    (∀ (j : Nat) (e' : InputEdge), n'.input_edges[j]? = some e' → ∃ e, n.input_edges[j]? = some e ∧
      e'.connected = e.connected ∧ e'.target = e.target ∧
      (e.connected = true → e'.data_offset = e.data_offset))

theorem nodesPres_refl (ns : List Node) : NodesPres ns ns := by
  refine ⟨rfl, fun i n' h => ⟨n', h, rfl, rfl, fun j e' he => ⟨e', he, rfl, rfl, fun _ => rfl⟩⟩⟩

theorem nodesPres_trans {ns1 ns2 ns3 : List Node}
    (h12 : NodesPres ns1 ns2) (h23 : NodesPres ns2 ns3) : NodesPres ns1 ns3 := by
  refine ⟨h23.1.trans h12.1, fun i n3 h3 => ?_⟩
  rcases h23.2 i n3 h3 with ⟨n2, h2, hsig23, hlen23, hedges23⟩
  rcases h12.2 i n2 h2 with ⟨n1, h1, hsig12, hlen12, hedges12⟩
  refine ⟨n1, h1, hsig23.trans hsig12, hlen23.trans hlen12, fun j e3 he3 => ?_⟩
  rcases hedges23 j e3 he3 with ⟨e2, he2, hc23, ht23, hd23⟩
  rcases hedges12 j e2 he2 with ⟨e1, he1, hc12, ht12, hd12⟩
  refine ⟨e1, he1, hc23.trans hc12, ht23.trans ht12, fun hc1 => ?_⟩
  exact (hd23 (hc12.trans hc1)).trans (hd12 hc1)

/-- Reading `NodesPres` in the forward direction. -/
theorem nodesPres_forward {ns ns' : List Node} (h : NodesPres ns ns')
    (i : Nat) (n : Node) (hn : ns[i]? = some n) :
    ∃ n', ns'[i]? = some n' ∧ n'.signature = n.signature ∧
      n'.input_edges.length = n.input_edges.length ∧
      (∀ (j : Nat) (e : InputEdge), n.input_edges[j]? = some e → ∃ e', n'.input_edges[j]? = some e' ∧
        e'.connected = e.connected ∧ e'.target = e.target ∧
        (e.connected = true → e'.data_offset = e.data_offset)) := by
  have hi : i < ns.length := (List.getElem?_eq_some.mp hn).1
  have hi' : i < ns'.length := h.1 ▸ hi
  rcases List.getElem?_eq_some.mp (List.getElem?_eq_getElem hi') with ⟨_, _⟩
  rcases h.2 i ns'[i] (List.getElem?_eq_getElem hi') with ⟨n0, hn0, hsig, hlen, hedges⟩
  rw [hn] at hn0
  injection hn0 with hn0
  subst hn0
  refine ⟨ns'[i], List.getElem?_eq_getElem hi', hsig, hlen, fun j e he => ?_⟩
  have hj : j < n.input_edges.length := (List.getElem?_eq_some.mp he).1
  have hj' : j < ns'[i].input_edges.length := hlen ▸ hj
  rcases hedges j (ns'[i].input_edges[j]) (List.getElem?_eq_getElem hj')
    with ⟨e0, he0, hc, ht, hd⟩
  rw [he] at he0
  injection he0 with he0
  subst he0
  exact ⟨ns'[i].input_edges[j], List.getElem?_eq_getElem hj', hc, ht, hd⟩

theorem getElem?_map_nodes (f : Node → Node) (ns : List Node) (i : Nat) :
    (ns.map f)[i]? = (ns[i]?).map f := by
  simp [List.getElem?_map]

theorem nodesPres_resize (ns : List Node) : NodesPres ns (resizeOutputEdges ns) := by
  refine ⟨by simp [resizeOutputEdges], fun i n' h => ?_⟩
  rw [resizeOutputEdges, getElem?_map_nodes] at h
  rcases hn : ns[i]? with _ | n
  · rw [hn] at h
    cases h
  · rw [hn] at h
    injection h with h
    subst h
    exact ⟨n, rfl, rfl, rfl, fun j e' he =>
      ⟨e', he, rfl, rfl, fun _ => rfl⟩⟩

/-- `updateNth` with a function that preserves the wiring data of a node
preserves `NodesPres`. -/
theorem nodesPres_updateNth (ns : List Node) (i : Nat) (f : Node → Node)
    (hf : ∀ n, ns[i]? = some n → (f n).signature = n.signature ∧
      (f n).input_edges.length = n.input_edges.length ∧
      (∀ (j : Nat) (e' : InputEdge), (f n).input_edges[j]? = some e' → ∃ e, n.input_edges[j]? = some e ∧
        e'.connected = e.connected ∧ e'.target = e.target ∧
        (e.connected = true → e'.data_offset = e.data_offset))) :
    NodesPres ns (updateNth f i ns) := by
  refine ⟨by simp, fun k n' h => ?_⟩
  by_cases hk : k = i
  · subst hk
    rw [getElem?_updateNth_self] at h
    rcases hn : ns[k]? with _ | n
    · rw [hn] at h
      cases h
    · rw [hn] at h
      injection h with h
      subst h
      exact ⟨n, rfl, (hf n hn).1, (hf n hn).2.1, (hf n hn).2.2⟩
  · rw [getElem?_updateNth_other _ _ _ _ hk] at h
    exact ⟨n', h, rfl, rfl, fun j e' he => ⟨e', he, rfl, rfl, fun _ => rfl⟩⟩

theorem nodesPres_phase1Edge (nodes : List Node) (off : Nat) (i j : Nat)
    (nodes' : List Node) (off' : Nat)
    (h : phase1Edge nodes off i j = .inl (nodes', off')) :
    NodesPres nodes nodes' := by
  unfold phase1Edge at h
  rcases h1 : nodes[i]? with _ | node
  · rw [h1] at h
    cases h
  · rw [h1] at h
    dsimp only at h
    rcases h2 : node.input_edges[j]? with _ | edge
    · rw [h2] at h
      cases h
    · rw [h2] at h
      dsimp only at h
      by_cases hc : edge.connected = true
      · rw [if_pos hc] at h
        rcases h3 : nodes[edge.target.node_index]? with _ | tgt
        · rw [h3] at h
          cases h
        · rw [h3] at h
          dsimp only at h
          by_cases h4 : edge.target.edge_index < tgt.output_edges.length
          · rw [if_pos h4] at h
            injection h with h
            injection h with h hoff
            subst h
            refine nodesPres_updateNth _ _ _ (fun n _ => ⟨rfl, rfl, fun j' e' he =>
              ⟨e', he, rfl, rfl, fun _ => rfl⟩⟩)
          · rw [if_neg h4] at h
            cases h
      · rw [if_neg hc] at h
        rcases h5 : node.signature.input_parameters[j]? with _ | ty
        · rw [h5] at h
          cases h
        · rw [h5] at h
          dsimp only at h
          injection h with h
          injection h with h hoff
          subst h
          refine nodesPres_updateNth _ _ _ (fun n hn => ⟨rfl, by simp, fun j' e' he => ?_⟩)
          by_cases hj : j' = j
          · subst hj
            rw [getElem?_updateNth_self] at he
            rcases h6 : n.input_edges[j']? with _ | e
            · rw [h6] at he
              cases he
            · rw [h6] at he
              injection he with he
              subst he
              refine ⟨e, rfl, rfl, rfl, fun hec => ?_⟩
              -- the offset is only assigned to an unconnected edge, so the
              -- connected case is impossible here
              rw [hn] at h1
              injection h1 with h1
              subst h1
              rw [h6] at h2
              injection h2 with h2
              subst h2
              exact absurd hec hc
          · rw [getElem?_updateNth_other _ _ _ _ hj] at he
            exact ⟨e', he, rfl, rfl, fun _ => rfl⟩

theorem nodesPres_phase1Edges (i : Nat) (js : List Nat) :
    ∀ nodes off nodes' off',
      phase1Edges nodes off i js = (nodes', off', none) →
      NodesPres nodes nodes' := by
  induction js with
  | nil =>
    intro nodes off nodes' off' h
    unfold phase1Edges at h
    injection h with h1 h2
    subst h1
    exact nodesPres_refl _
  | cons j rest ih =>
    intro nodes off nodes' off' h
    unfold phase1Edges at h
    rcases h1 : phase1Edge nodes off i j with ⟨nodes1, off1⟩ | m
    · rw [h1] at h
      dsimp only at h
      exact nodesPres_trans (nodesPres_phase1Edge nodes off i j nodes1 off1 h1)
        (ih nodes1 off1 nodes' off' h)
    · rw [h1] at h
      dsimp only at h
      injection h with _ h
      injection h with _ h
      cases h

theorem nodesPres_phase1Nodes (gname : String) (is : List Nat) :
    ∀ nodes off nodes' off',
      phase1Nodes gname nodes off is = (nodes', off', none) →
      NodesPres nodes nodes' := by
  induction is with
  | nil =>
    intro nodes off nodes' off' h
    unfold phase1Nodes at h
    injection h with h1 h2
    subst h1
    exact nodesPres_refl _
  | cons i rest ih =>
    intro nodes off nodes' off' h
    unfold phase1Nodes at h
    rcases h1 : nodes[i]? with _ | node
    · rw [h1] at h
      dsimp only at h
      injection h with _ h
      injection h with _ h
      cases h
    · rw [h1] at h
      dsimp only at h
      by_cases h2 : node.signature.input_parameters.length ≠ node.input_edges.length
      · rw [if_pos h2] at h
        injection h with _ h
        injection h with _ h
        cases h
      · rw [if_neg h2] at h
        rcases h3 : phase1Edges nodes off i
            (List.range node.signature.input_parameters.length)
          with ⟨nodes1, off1, merr⟩
        rw [h3] at h
        cases merr with
        | none =>
          dsimp only at h
          exact nodesPres_trans (nodesPres_phase1Edges i _ nodes off nodes1 off1 h3)
            (ih nodes1 off1 nodes' off' h)
        | some m =>
          dsimp only at h
          injection h with _ h
          injection h with _ h
          cases h

theorem nodesPres_phase3Node (off : Nat) (n : Node) :
    ∀ (j : Nat) (e' : InputEdge), (phase3Node off n).2.input_edges[j]? = some e' →
      ∃ e, n.input_edges[j]? = some e ∧ e'.connected = e.connected ∧
        e'.target = e.target ∧ (e.connected = true → e'.data_offset = e.data_offset) := by
  intro j e' he
  exact ⟨e', he, rfl, rfl, fun _ => rfl⟩

theorem nodesPres_phase3Nodes (off : Nat) (nodes : List Node) :
    NodesPres nodes (phase3Nodes off nodes).2 := by
  induction nodes generalizing off with
  | nil => exact nodesPres_refl _
  | cons n rest ih =>
    unfold phase3Nodes
    refine ⟨?_, fun i n' h => ?_⟩
    · simpa using ((ih (phase3Node off n).1).1)
    · cases i with
      | zero =>
        simp only [List.getElem?_cons_zero] at h
        injection h with h
        subst h
        exact ⟨n, by simp, rfl, rfl, nodesPres_phase3Node off n⟩
      | succ i =>
        simp only [List.getElem?_cons_succ] at h
        rcases (ih (phase3Node off n).1).2 i n' h with ⟨n0, hn0, hsig, hlen, hedges⟩
        exact ⟨n0, by simpa using hn0, hsig, hlen, hedges⟩

/-- The topological sort only toggles the `inserted`/`visited` marks: all
other node fields (the cores) are untouched, on every path. -/
def CoresEq (ns ns' : List Node) : Prop :=
  ns'.length = ns.length ∧
  ∀ i : Nat, (ns'[i]?).map Node.core = (ns[i]?).map Node.core

theorem coresEq_refl (ns : List Node) : CoresEq ns ns := ⟨rfl, fun _ => rfl⟩

theorem coresEq_trans {ns1 ns2 ns3 : List Node}
    (h12 : CoresEq ns1 ns2) (h23 : CoresEq ns2 ns3) : CoresEq ns1 ns3 :=
  ⟨h23.1.trans h12.1, fun i => (h23.2 i).trans (h12.2 i)⟩

theorem core_eq_fields {n n' : Node} (h : n'.core = n.core) :
    n'.signature = n.signature ∧ n'.input_edges = n.input_edges ∧
    n'.output_edges = n.output_edges ∧ n'.listener_offsets = n.listener_offsets ∧
    n'.timestamp_offset = n.timestamp_offset := by
  unfold Node.core at h
  injection h with h1 h
  injection h with h2 h
  injection h with h3 h
  injection h with h4 h5
  exact ⟨h1, h2, h3, h4, h5⟩

theorem coresEq_nodesPres {ns ns' : List Node} (h : CoresEq ns ns') :
    NodesPres ns ns' := by
  refine ⟨h.1, fun i n' hn' => ?_⟩
  have := h.2 i
  rw [hn'] at this
  rcases hn : ns[i]? with _ | n
  · rw [hn] at this
    cases this
  · rw [hn] at this
    injection this with this
    rcases core_eq_fields this with ⟨h1, h2, _, _, _⟩
    exact ⟨n, rfl, h1, by rw [h2], fun j e' he =>
      ⟨e', by rw [← h2]; exact he, rfl, rfl, fun _ => rfl⟩⟩

theorem coresEq_updateNth_flags (ns : List Node) (ni : Nat) (f : Node → Node)
    (hf : ∀ n, (f n).core = n.core) : CoresEq ns (updateNth f ni ns) := by
  refine ⟨by simp, fun i => ?_⟩
  by_cases hi : i = ni
  · subst hi
    rw [getElem?_updateNth_self]
    rcases hn : ns[i]? with _ | n
    · rfl
    · simp [hf n]
  · rw [getElem?_updateNth_other _ _ _ _ hi]

theorem coresEq_markVisited (st : SortSt) (ni : Nat) :
    CoresEq st.nodes (markVisited ni st).nodes :=
  coresEq_updateNth_flags _ _ _ (fun _ => rfl)

theorem coresEq_markInserted (st : SortSt) (ni : Nat) :
    CoresEq st.nodes (markInserted ni st).nodes :=
  coresEq_updateNth_flags _ _ _ (fun _ => rfl)

theorem coresEq_edgeLoopGo
    (insert : SortSt → Nat → SortSt × List LogMsg × SortOutcome)
    (hins : ∀ st ni, CoresEq st.nodes (insert st ni).1.nodes ∧
      (insert st ni).1.graph_name = st.graph_name) :
    ∀ (js : List Nat) (st : SortSt) (ni : Nat),
      CoresEq st.nodes (edgeLoopGo insert st ni js).1.nodes ∧
      (edgeLoopGo insert st ni js).1.graph_name = st.graph_name := by
  intro js
  induction js with
  | nil => exact fun st ni => ⟨coresEq_refl _, rfl⟩
  | cons j rest ih =>
    intro st ni
    unfold edgeLoopGo
    rcases h1 : st.nodes[ni]? with _ | node
    · exact ⟨coresEq_refl _, rfl⟩
    · dsimp only
      rcases h2 : node.input_edges[j]? with _ | edge
      · exact ⟨coresEq_refl _, rfl⟩
      · dsimp only
        by_cases hc : edge.connected = true
        · rw [if_pos hc]
          rcases h3 : st.nodes[edge.target.node_index]? with _ | dependency
          · exact ⟨coresEq_refl _, rfl⟩
          · dsimp only
            rcases h4 : node.signature.input_parameters[j]? with _ | input_type
            · exact ⟨coresEq_refl _, rfl⟩
            · rcases h5 : dependency.signature.output_parameters[edge.target.edge_index]?
                with _ | output_type
              · exact ⟨coresEq_refl _, rfl⟩
              · dsimp only
                by_cases h6 : input_type ≠ output_type
                · rw [if_pos h6]
                  exact ⟨coresEq_refl _, rfl⟩
                · rw [if_neg h6]
                  by_cases h7 : dependency.visited = true
                  · rw [if_pos h7]
                    exact ⟨coresEq_refl _, rfl⟩
                  · rw [if_neg h7]
                    by_cases h8 : !dependency.inserted
                    · rw [if_pos h8]
                      have ha := hins st edge.target.node_index
                      rcases h9 : insert st edge.target.node_index with ⟨st', log, out⟩
                      rw [h9] at ha
                      cases out with
                      | ok =>
                        dsimp only [prependLog]
                        have hb := ih st' ni
                        exact ⟨coresEq_trans ha.1 hb.1, hb.2.trans ha.2⟩
                      | err =>
                        dsimp only
                        exact ha
                      | fuelOut =>
                        dsimp only
                        exact ha
                    · rw [if_neg h8]
                      exact ih st ni
        · rw [if_neg hc]
          exact ih st ni

theorem coresEq_insertNodeF : ∀ (fuel : Nat) (st : SortSt) (ni : Nat),
    CoresEq st.nodes (InsertNodeF fuel st ni).1.nodes ∧
    (InsertNodeF fuel st ni).1.graph_name = st.graph_name := by
  intro fuel
  induction fuel with
  | zero => exact fun st ni => ⟨coresEq_refl _, rfl⟩
  | succ fuel ih =>
    intro st ni
    unfold InsertNodeF
    rcases h1 : st.nodes[ni]? with _ | node
    · exact ⟨coresEq_refl _, rfl⟩
    · dsimp only
      by_cases h2 : node.inserted = true
      · rw [if_pos h2]
        exact ⟨coresEq_refl _, rfl⟩
      · rw [if_neg h2]
        rcases h3 : edgeLoopGo (InsertNodeF fuel) (markVisited ni st) ni
            (List.range node.input_edges.length) with ⟨st2, log, out⟩
        have hloop := coresEq_edgeLoopGo (InsertNodeF fuel) ih
          (List.range node.input_edges.length) (markVisited ni st) ni
        rw [h3] at hloop
        cases out with
        | ok =>
          dsimp only
          refine ⟨coresEq_trans (coresEq_trans (coresEq_markVisited st ni) hloop.1)
            (coresEq_markInserted st2 ni), hloop.2⟩
        | err => exact ⟨coresEq_trans (coresEq_markVisited st ni) hloop.1, hloop.2⟩
        | fuelOut => exact ⟨coresEq_trans (coresEq_markVisited st ni) hloop.1, hloop.2⟩

theorem coresEq_sortLoopF (fuel : Nat) :
    ∀ (is : List Nat) (st : SortSt),
      CoresEq st.nodes (SortLoopF fuel st is).1.nodes ∧
      (SortLoopF fuel st is).1.graph_name = st.graph_name := by
  intro is
  induction is with
  | nil => exact fun st => ⟨coresEq_refl _, rfl⟩
  | cons ni rest ih =>
    intro st
    unfold SortLoopF
    rcases h1 : InsertNodeF fuel st ni with ⟨st', log, out⟩
    have ha := coresEq_insertNodeF fuel st ni
    rw [h1] at ha
    cases out with
    | ok =>
      dsimp only
      have hb := ih st'
      exact ⟨coresEq_trans ha.1 hb.1, hb.2.trans ha.2⟩
    | err => exact ha
    | fuelOut => exact ha

theorem nodesPres_sortGraphNodes (g : Graph) :
    NodesPres g.nodes (Graph.SortGraphNodes g).1.nodes := by
  unfold Graph.SortGraphNodes
  exact coresEq_nodesPres (coresEq_sortLoopF (g.nodes.length + 1)
    (List.range g.nodes.length) _).1

/-- On a successful run, `FinalizeNodes` preserves the wiring: signatures,
input-edge connection states and targets, and the data offsets of connected
input edges (which therefore keep their constructed value). -/
theorem nodesPres_finalize (g : Graph)
    (h : (Graph.FinalizeNodes g).2.2 = true) :
    NodesPres g.nodes (Graph.FinalizeNodes g).1.nodes := by
  rcases hp : phase1Nodes g.graph_name (resizeOutputEdges g.nodes) 0
      (List.range (resizeOutputEdges g.nodes).length) with ⟨nodes1, isz, err⟩
  unfold Graph.FinalizeNodes at h ⊢
  rw [hp] at h ⊢
  cases err with
  | some m =>
    dsimp only at h
    exact Bool.noConfusion h
  | none =>
    dsimp only at h ⊢
    have h1 : NodesPres g.nodes nodes1 :=
      nodesPres_trans (nodesPres_resize g.nodes)
        (nodesPres_phase1Nodes g.graph_name _ _ _ _ _ hp)
    unfold finalizeSort at h ⊢
    rcases hs : Graph.SortGraphNodes (finalizeLayout g nodes1 isz) with ⟨g3, log, b⟩
    have h2 : NodesPres nodes1 (finalizeLayout g nodes1 isz).nodes :=
      nodesPres_phase3Nodes 0 nodes1
    have h3 := nodesPres_sortGraphNodes (finalizeLayout g nodes1 isz)
    rw [hs] at h3
    cases b
    · rw [hs] at h
      exact Bool.noConfusion h
    · dsimp only
      exact nodesPres_trans h1 (nodesPres_trans h2 h3)

/-! ### Claim C10: SetDefaultValue does not check connectivity -/

/-- C10: `SetDefaultValue` never verifies that the addressed input edge is
unconnected.  (1) On any graph, if the node and edge indices are in range and
the value type matches the edge's declared type, the call is accepted with no
diagnostic — the edge's connection state is never examined — and it writes the
value into the shared default-value buffer at the edge's `data_offset`.
(2) `FinalizeNodes` never assigns a data offset to a connected input edge, so
a connected edge keeps its constructed offset (0 for edges built by
`SetTarget` on a fresh edge).  (3) Concretely, on the finalized alias graph,
writing a "default" for the connected edge (1,1) lands at offset 0 and
overwrites the default value belonging to the unconnected edge (1,0). -/
theorem setDefaultValue_unchecked_connected :
    (∀ (g : Graph) (ni ei : Nat) (node : Node) (e : InputEdge) (ty : Ty) (v : Val),
      g.nodes[ni]? = some node →
      node.input_edges[ei]? = some e →
      node.signature.input_parameters[ei]? = some ty →
      e.connected = true →
      Graph.SetDefaultValue g ni ei ty v =
        ({ g with input_buffer := g.input_buffer.write e.data_offset v }, none)) ∧
    (∀ (g : Graph) (ni ei : Nat) (node : Node) (e : InputEdge),
      (Graph.FinalizeNodes g).2.2 = true →
      g.nodes[ni]? = some node → node.input_edges[ei]? = some e →
      e.connected = true →
      ∃ node' e', (Graph.FinalizeNodes g).1.nodes[ni]? = some node' ∧
        node'.input_edges[ei]? = some e' ∧ e'.connected = true ∧
        e'.data_offset = e.data_offset) ∧
    ((Graph.SetDefaultValue aliasFinal 1 1 intTy (.intV 42)).2 = none ∧
      aliasFinal.input_buffer 0 = .defaultOf "int" ∧
      (Graph.SetDefaultValue aliasFinal 1 1 intTy (.intV 42)).1.input_buffer 0 = .intV 42 ∧
      NodeArguments.GetInput
        ((Graph.SetDefaultValue aliasFinal 1 1 intTy (.intV 42)).1.nodes.get ⟨1, by decide⟩)
        (Graph.SetDefaultValue aliasFinal 1 1 intTy (.intV 42)).1.nodes
        (Graph.SetDefaultValue aliasFinal 1 1 intTy (.intV 42)).1.input_buffer
        Buf.zero 0 = some (.intV 42)) := by
  refine ⟨fun g ni ei node e ty v hn he hty _ => ?_, fun g ni ei node e hfin hn he hc => ?_,
    by decide, by decide, by decide, by decide⟩
  · unfold Graph.SetDefaultValue
    rw [hn]
    dsimp only
    rw [he]
    dsimp only
    rw [hty]
    dsimp only
    rw [if_neg (by simp)]
  · rcases nodesPres_forward (nodesPres_finalize g hfin) ni node hn
      with ⟨node', hn', _, _, hedges⟩
    rcases hedges ei e he with ⟨e', he', hc', _, hd⟩
    exact ⟨node', e', hn', he', hc'.trans hc, hd hc⟩

/-- Witness for C10 at the concrete alias scenario. -/
theorem setDefaultValue_unchecked_connected_witness :
    Graph.SetDefaultValue aliasFinal 1 1 intTy (.intV 42) =
      ({ aliasFinal with input_buffer := aliasFinal.input_buffer.write 0 (.intV 42) }, none) := by
  have h := (setDefaultValue_unchecked_connected).1 aliasFinal 1 1
    (aliasFinal.nodes.get ⟨1, by decide⟩)
    ((aliasFinal.nodes.get ⟨1, by decide⟩).input_edges.get ⟨1, by decide⟩)
    intTy (.intV 42) (by decide) (by decide) (by decide) (by decide)
  have hd : ((aliasFinal.nodes.get ⟨1, by decide⟩).input_edges.get ⟨1, by decide⟩).data_offset
      = 0 := by decide
  rw [hd] at h
  exact h

/-! ### The topological-sort invariant (claims C2, C3, C7) -/

/-- The node at index `i` carries the `inserted` mark. -/
def InsertedAt (ns : List Node) (i : Nat) : Prop :=
  ∃ n, ns[i]? = some n ∧ n.inserted = true

/-- Type correctness of the connected edge `(a, j)`: the input parameter type
equals the output parameter type of the targeted edge. -/
def TypeOkAt (ns : List Node) (a j : Nat) (e : InputEdge) : Prop :=
  ∃ na nb tin tout, ns[a]? = some na ∧ ns[e.target.node_index]? = some nb ∧
    na.signature.input_parameters[j]? = some tin ∧
    nb.signature.output_parameters[e.target.edge_index]? = some tout ∧ tin = tout

/-- All connected input edges of node `a` have been fully processed: their
targets are already in the evaluation order, strictly before `a`, and type
checked. -/
def EdgesDone (st : SortSt) (a : Nat) : Prop :=
  ∀ na, st.nodes[a]? = some na →
    ∀ (j : Nat) (e : InputEdge), na.input_edges[j]? = some e → e.connected = true →
      e.target.node_index ∈ st.sorted ∧
      listPos e.target.node_index st.sorted < listPos a st.sorted ∧
      TypeOkAt st.nodes a j e

/-- The invariant maintained by `InsertNode` between calls. -/
structure SortInv (st : SortSt) : Prop where
  nodup : st.sorted.Nodup
  mem_iff : ∀ i : Nat, i ∈ st.sorted ↔ InsertedAt st.nodes i
  edges_done : ∀ a ∈ st.sorted, EdgesDone st a

/-- What a successful `InsertNode` call guarantees about the state change. -/
structure SortPost (st st' : SortSt) : Prop where
  cores : CoresEq st.nodes st'.nodes
  sorted_ext : ∃ d, st'.sorted = st.sorted ++ d
  visited_eq : ∀ (i : Nat) (n n' : Node), st.nodes[i]? = some n →
    st'.nodes[i]? = some n' → n'.visited = n.visited
  inserted_mono : ∀ (i : Nat) (n n' : Node), st.nodes[i]? = some n →
    st'.nodes[i]? = some n' → n.inserted = true → n'.inserted = true
  visited_blocks : ∀ (i : Nat) (n n' : Node), st.nodes[i]? = some n →
    st'.nodes[i]? = some n' → n.visited = true → n'.inserted = n.inserted

/-- What a successful run of the edge loop over the indices `js` guarantees
for the node `ni` being inserted (memberships are stated in the final state
`stF`, edge data in the entry state `st`). -/
def EdgePref (st : SortSt) (ni : Nat) (js : List Nat) (stF : SortSt) : Prop :=
  ∀ j ∈ js, ∀ (na : Node) (e : InputEdge), st.nodes[ni]? = some na →
    na.input_edges[j]? = some e → e.connected = true →
    e.target.node_index ∈ stF.sorted ∧ TypeOkAt st.nodes ni j e

theorem coresEq_symm {ns ns' : List Node} (h : CoresEq ns ns') : CoresEq ns' ns :=
  ⟨h.1.symm, fun i => (h.2 i).symm⟩

theorem coresEq_some {ns ns' : List Node} (h : CoresEq ns ns') (i : Nat) (n : Node)
    (hn : ns[i]? = some n) : ∃ n', ns'[i]? = some n' ∧ n'.core = n.core := by
  have := h.2 i
  rw [hn] at this
  rcases hn' : ns'[i]? with _ | n'
  · rw [hn'] at this
    cases this
  · rw [hn'] at this
    injection this with this
    exact ⟨n', rfl, this⟩

theorem typeOkAt_coresEq {ns ns' : List Node} (h : CoresEq ns ns') (a j : Nat)
    (e : InputEdge) (ht : TypeOkAt ns a j e) : TypeOkAt ns' a j e := by
  rcases ht with ⟨na, nb, tin, tout, hna, hnb, hti, hto, heq⟩
  rcases coresEq_some h a na hna with ⟨na', hna', hca⟩
  rcases coresEq_some h _ nb hnb with ⟨nb', hnb', hcb⟩
  exact ⟨na', nb', tin, tout, hna', hnb',
    (core_eq_fields hca).1 ▸ hti, (core_eq_fields hcb).1 ▸ hto, heq⟩

theorem sortPost_refl (st : SortSt) : SortPost st st := by
  refine ⟨coresEq_refl _, ⟨[], by simp⟩, ?_, ?_, ?_⟩ <;>
    · intro i n n' hn hn'
      rw [hn] at hn'
      injection hn' with hn'
      subst hn'
      intros
      simp_all

theorem sortPost_trans {st1 st2 st3 : SortSt}
    (h12 : SortPost st1 st2) (h23 : SortPost st2 st3) : SortPost st1 st3 := by
  refine ⟨coresEq_trans h12.cores h23.cores, ?_, ?_, ?_, ?_⟩
  · rcases h12.sorted_ext with ⟨d1, hd1⟩
    rcases h23.sorted_ext with ⟨d2, hd2⟩
    exact ⟨d1 ++ d2, by rw [hd2, hd1, List.append_assoc]⟩
  · intro i n n' hn hn'
    rcases coresEq_some h12.cores i n hn with ⟨n2, hn2, _⟩
    rw [h23.visited_eq i n2 n' hn2 hn', h12.visited_eq i n n2 hn hn2]
  · intro i n n' hn hn' hins
    rcases coresEq_some h12.cores i n hn with ⟨n2, hn2, _⟩
    exact h23.inserted_mono i n2 n' hn2 hn' (h12.inserted_mono i n n2 hn hn2 hins)
  · intro i n n' hn hn' hvis
    rcases coresEq_some h12.cores i n hn with ⟨n2, hn2, _⟩
    have hv2 : n2.visited = true := (h12.visited_eq i n n2 hn hn2).trans hvis
    rw [h23.visited_blocks i n2 n' hn2 hn' hv2, h12.visited_blocks i n n2 hn hn2 hvis]

/-- A state change that keeps the sorted list, the cores and the `inserted`
marks preserves the invariant. -/
theorem sortInv_congr {st st' : SortSt} (h : SortInv st)
    (hs : st'.sorted = st.sorted)
    (hcore : CoresEq st.nodes st'.nodes)
    (hins : ∀ i : Nat, InsertedAt st'.nodes i ↔ InsertedAt st.nodes i) :
    SortInv st' := by
  refine ⟨hs ▸ h.nodup, fun i => by rw [hs, h.mem_iff i, hins i], fun a ha => ?_⟩
  intro na' hna' j e he hc
  rcases coresEq_some (coresEq_symm hcore) a na' hna' with ⟨na, hna, hcna⟩
  have he0 : na.input_edges[j]? = some e := by
    rw [← (core_eq_fields hcna).2.1] at he
    exact he
  have h0 := h.edges_done a (hs ▸ ha) na hna j e he0 hc
  exact ⟨hs ▸ h0.1, by rw [hs]; exact h0.2.1, typeOkAt_coresEq hcore a j e h0.2.2⟩

/-- `updateNth` with a function preserving the `inserted` flag preserves
`InsertedAt` at every index. -/
theorem insertedAt_updateNth (ns : List Node) (ni : Nat) (f : Node → Node)
    (hf : ∀ n, (f n).inserted = n.inserted) (i : Nat) :
    InsertedAt (updateNth f ni ns) i ↔ InsertedAt ns i := by
  unfold InsertedAt
  by_cases hi : i = ni
  · subst hi
    rw [getElem?_updateNth_self]
    rcases hn : ns[i]? with _ | n
    · simp
    · simp only [Option.map_some']
      constructor
      · rintro ⟨n', hn', hins⟩
        injection hn' with hn'
        subst hn'
        refine ⟨n, rfl, ?_⟩
        rw [← hf n]
        exact hins
      · rintro ⟨n', hn', hins⟩
        injection hn' with hn'
        subst hn'
        refine ⟨f n, rfl, ?_⟩
        rw [hf n]
        exact hins
  · rw [getElem?_updateNth_other _ _ _ _ hi]

theorem sortInv_markVisited (st : SortSt) (ni : Nat) (h : SortInv st) :
    SortInv (markVisited ni st) :=
  sortInv_congr h rfl (coresEq_markVisited st ni)
    (insertedAt_updateNth st.nodes ni _ (fun _ => rfl))

theorem mem_sorted_ext {st st' : SortSt} (h : SortPost st st') {i : Nat}
    (hm : i ∈ st.sorted) : i ∈ st'.sorted := by
  rcases h.sorted_ext with ⟨d, hd⟩
  rw [hd]
  exact List.mem_append_left d hm

theorem edgePref_transport {st st' stF : SortSt} (hc : CoresEq st.nodes st'.nodes)
    (ni : Nat) (js : List Nat)
    (h : EdgePref st' ni js stF) : EdgePref st ni js stF := by
  intro j hj na e hna he hcon
  rcases coresEq_some hc ni na hna with ⟨na', hna', hcna⟩
  have he' : na'.input_edges[j]? = some e := by
    rw [(core_eq_fields hcna).2.1]
    exact he
  have h0 := h j hj na' e hna' he' hcon
  exact ⟨h0.1, typeOkAt_coresEq (coresEq_symm hc) ni j e h0.2⟩

/-- The edge loop of `InsertNode`, on success, preserves the invariant; the
state only grows (SortPost), and every connected edge among the processed
indices ends with its target inserted, type checked. -/
theorem edgeLoop_ok_inv
    (insert : SortSt → Nat → SortSt × List LogMsg × SortOutcome)
    (IH : ∀ (st : SortSt) (ni : Nat) (stF : SortSt) (log : List LogMsg),
      insert st ni = (stF, log, .ok) → SortInv st →
      (∀ n, st.nodes[ni]? = some n → n.inserted = true ∨ n.visited = false) →
      SortInv stF ∧ SortPost st stF ∧ ni ∈ stF.sorted) :
    ∀ (js : List Nat) (st : SortSt) (ni : Nat) (stF : SortSt) (log : List LogMsg),
      edgeLoopGo insert st ni js = (stF, log, .ok) → SortInv st →
      SortInv stF ∧ SortPost st stF ∧ EdgePref st ni js stF := by
  intro js
  induction js with
  | nil =>
    intro st ni stF log h hinv
    unfold edgeLoopGo at h
    injection h with h1 h2
    subst h1
    exact ⟨hinv, sortPost_refl st, fun j hj => absurd hj (List.not_mem_nil j)⟩
  | cons j rest ih =>
    intro st ni stF log h hinv
    unfold edgeLoopGo at h
    rcases h1 : st.nodes[ni]? with _ | node
    · rw [h1] at h
      injection h with hA h
      injection h with hB h
      cases h
    · rw [h1] at h
      dsimp only at h
      rcases h2 : node.input_edges[j]? with _ | edge
      · rw [h2] at h
        injection h with hA h
        injection h with hB h
        cases h
      · rw [h2] at h
        dsimp only at h
        by_cases hc : edge.connected = true
        · rw [if_pos hc] at h
          rcases h3 : st.nodes[edge.target.node_index]? with _ | dependency
          · rw [h3] at h
            injection h with hA h
            injection h with hB h
            cases h
          · rw [h3] at h
            dsimp only at h
            rcases h4 : node.signature.input_parameters[j]? with _ | input_type
            · rw [h4] at h
              injection h with hA h
              injection h with hB h
              cases h
            · rcases h5 : dependency.signature.output_parameters[edge.target.edge_index]?
                with _ | output_type
              · rw [h4, h5] at h
                injection h with hA h
                injection h with hB h
                cases h
              · rw [h4, h5] at h
                dsimp only at h
                by_cases h6 : input_type ≠ output_type
                · rw [if_pos h6] at h
                  injection h with hA h
                  injection h with hB h
                  cases h
                · rw [if_neg h6] at h
                  have heq : input_type = output_type := not_not.mp h6
                  by_cases h7 : dependency.visited = true
                  · rw [if_pos h7] at h
                    injection h with hA h
                    injection h with hB h
                    cases h
                  · rw [if_neg h7] at h
                    by_cases h8 : (!dependency.inserted) = true
                    · rw [if_pos h8] at h
                      rcases h9 : insert st edge.target.node_index with ⟨st', log1, out⟩
                      rw [h9] at h
                      cases out with
                      | err =>
                        injection h with hA h
                        injection h with hB h
                        cases h
                      | fuelOut =>
                        injection h with hA h
                        injection h with hB h
                        cases h
                      | ok =>
                        dsimp only [prependLog] at h
                        rcases h10 : edgeLoopGo insert st' ni rest with ⟨stF', log2, out2⟩
                        rw [h10] at h
                        dsimp only at h
                        injection h with hA h
                        injection h with hB h
                        subst hA
                        subst h
                        have hdep := IH st edge.target.node_index st' log1 h9 hinv
                          (fun n hn => by
                            rw [h3] at hn
                            injection hn with hn
                            subst hn
                            exact Or.inr (by simpa using h7))
                        have hrest := ih st' ni stF' log2 h10 hdep.1
                        refine ⟨hrest.1, sortPost_trans hdep.2.1 hrest.2.1, ?_⟩
                        intro j' hj' na e hna he hcon
                        rcases List.mem_cons.mp hj' with hj' | hj'
                        · subst hj'
                          rw [h1] at hna
                          injection hna with hna
                          subst hna
                          rw [h2] at he
                          injection he with he
                          subst he
                          refine ⟨mem_sorted_ext hrest.2.1 hdep.2.2,
                            node, dependency, input_type, output_type, h1, h3, h4, h5, heq⟩
                        · exact edgePref_transport hdep.2.1.cores ni rest hrest.2.2 j' hj'
                            na e hna he hcon
                    · rw [if_neg h8] at h
                      have hins : dependency.inserted = true := by simpa using h8
                      have hrest := ih st ni stF log h hinv
                      refine ⟨hrest.1, hrest.2.1, ?_⟩
                      intro j' hj' na e hna he hcon
                      rcases List.mem_cons.mp hj' with hj' | hj'
                      · subst hj'
                        rw [h1] at hna
                        injection hna with hna
                        subst hna
                        rw [h2] at he
                        injection he with he
                        subst he
                        have hmem : edge.target.node_index ∈ st.sorted :=
                          (hinv.mem_iff _).mpr ⟨dependency, h3, hins⟩
                        refine ⟨mem_sorted_ext hrest.2.1 hmem,
                          node, dependency, input_type, output_type, h1, h3, h4, h5, heq⟩
                      · exact hrest.2.2 j' hj' na e hna he hcon
        · rw [if_neg hc] at h
          have hrest := ih st ni stF log h hinv
          refine ⟨hrest.1, hrest.2.1, ?_⟩
          intro j' hj' na e hna he hcon
          rcases List.mem_cons.mp hj' with hj' | hj'
          · subst hj'
            rw [h1] at hna
            injection hna with hna
            subst hna
            rw [h2] at he
            injection he with he
            subst he
            exact absurd hcon hc
          · exact hrest.2.2 j' hj' na e hna he hcon

theorem nodup_append_singleton {l : List Nat} {a : Nat} (h : l.Nodup) (ha : a ∉ l) :
    (l ++ [a]).Nodup :=
  List.Nodup.append h (List.nodup_singleton a) (by
    intro x hx hxa
    simp only [List.mem_singleton] at hxa
    subst hxa
    exact ha hx)

/-- A successful `InsertNode` call preserves the invariant, only grows the
state, and leaves its node inserted. -/
theorem insertNodeF_ok_inv :
    ∀ (fuel : Nat) (st : SortSt) (ni : Nat) (stF : SortSt) (log : List LogMsg),
      InsertNodeF fuel st ni = (stF, log, .ok) → SortInv st →
      (∀ n, st.nodes[ni]? = some n → n.inserted = true ∨ n.visited = false) →
      SortInv stF ∧ SortPost st stF ∧ ni ∈ stF.sorted := by
  intro fuel
  induction fuel with
  | zero =>
    intro st ni stF log h hinv hpre
    unfold InsertNodeF at h
    injection h with hA h
    injection h with hB h
    cases h
  | succ fuel ih =>
    intro st ni stF log h hinv hpre
    unfold InsertNodeF at h
    rcases h1 : st.nodes[ni]? with _ | node
    · rw [h1] at h
      injection h with hA h
      injection h with hB h
      cases h
    · rw [h1] at h
      dsimp only at h
      by_cases h2 : node.inserted = true
      · rw [if_pos h2] at h
        injection h with hA h
        injection h with hB h
        subst hA
        exact ⟨hinv, sortPost_refl st, (hinv.mem_iff ni).mpr ⟨node, h1, h2⟩⟩
      · rw [if_neg h2] at h
        have hnodeins : node.inserted = false := by simpa using h2
        have hvfalse : node.visited = false := by
          rcases hpre node h1 with h' | h'
          · exact absurd h' h2
          · exact h'
        rcases h3 : edgeLoopGo (InsertNodeF fuel) (markVisited ni st) ni
            (List.range node.input_edges.length) with ⟨st2, log2, out⟩
        rw [h3] at h
        cases out with
        | err =>
          injection h with hA h
          injection h with hB h
          cases h
        | fuelOut =>
          injection h with hA h
          injection h with hB h
          cases h
        | ok =>
          dsimp only at h
          injection h with hA h
          injection h with hB h
          subst hA
          have hinv1 : SortInv (markVisited ni st) := sortInv_markVisited st ni hinv
          obtain ⟨hinv2, hpost12, hpref⟩ :=
            edgeLoop_ok_inv (InsertNodeF fuel) ih _ (markVisited ni st) ni st2 log2 h3 hinv1
          have hn1 : (markVisited ni st).nodes[ni]? = some { node with visited := true } := by
            unfold markVisited
            dsimp only
            rw [getElem?_updateNth_self, h1]
            rfl
          obtain ⟨n2, hn2, hcore2⟩ := coresEq_some hpost12.cores ni _ hn1
          have hn2vis : n2.visited = true := by
            rw [hpost12.visited_eq ni _ n2 hn1 hn2]
          have hn2ins : n2.inserted = false := by
            rw [hpost12.visited_blocks ni _ n2 hn1 hn2 rfl]
            exact hnodeins
          have hni_not : ni ∉ st2.sorted := by
            intro hmem
            rcases (hinv2.mem_iff ni).mp hmem with ⟨n2', hn2', hins⟩
            rw [hn2] at hn2'
            injection hn2' with hn2'
            subst hn2'
            rw [hn2ins] at hins
            cases hins
          -- lookups in the final state
          have hfin_sorted : (markInserted ni st2).sorted = st2.sorted ++ [ni] := rfl
          have hfin_ni : (markInserted ni st2).nodes[ni]? =
              some { n2 with visited := false, inserted := true } := by
            unfold markInserted
            dsimp only
            rw [getElem?_updateNth_self, hn2]
            rfl
          have hfin_other : ∀ i : Nat, i ≠ ni →
              (markInserted ni st2).nodes[i]? = st2.nodes[i]? := by
            intro i hi
            unfold markInserted
            dsimp only
            rw [getElem?_updateNth_other _ _ _ _ hi]
          have hedges_n2 : n2.input_edges = node.input_edges := by
            have e1 := (core_eq_fields hcore2).2.1
            exact e1
          -- cores of the whole call
          have hcoresF : CoresEq st.nodes (markInserted ni st2).nodes :=
            coresEq_trans (coresEq_markVisited st ni)
              (coresEq_trans hpost12.cores (coresEq_markInserted st2 ni))
          have hmv_other : ∀ i : Nat, i ≠ ni →
              (markVisited ni st).nodes[i]? = st.nodes[i]? := by
            intro i hi
            unfold markVisited
            dsimp only
            rw [getElem?_updateNth_other _ _ _ _ hi]
          -- the invariant in the final state
          have hinvF : SortInv (markInserted ni st2) := by
            refine ⟨?_, ?_, ?_⟩
            · rw [hfin_sorted]
              exact nodup_append_singleton hinv2.nodup hni_not
            · intro i
              rw [hfin_sorted]
              by_cases hi : i = ni
              · subst hi
                constructor
                · intro _
                  exact ⟨_, hfin_ni, rfl⟩
                · intro _
                  simp
              · rw [List.mem_append, List.mem_singleton]
                constructor
                · rintro (hm | hm)
                  · rcases (hinv2.mem_iff i).mp hm with ⟨n', hn', hins⟩
                    exact ⟨n', by rw [hfin_other i hi]; exact hn', hins⟩
                  · exact absurd hm hi
                · rintro ⟨n', hn', hins⟩
                  rw [hfin_other i hi] at hn'
                  exact Or.inl ((hinv2.mem_iff i).mpr ⟨n', hn', hins⟩)
            · intro a ha
              rw [hfin_sorted, List.mem_append, List.mem_singleton] at ha
              rcases ha with ha | ha
              · -- an old member: positions and memberships are stable
                have hane : a ≠ ni := fun hc => hni_not (hc ▸ ha)
                intro na hna j e he hc
                rw [hfin_other a hane] at hna
                have h0 := hinv2.edges_done a ha na hna j e he hc
                refine ⟨?_, ?_, ?_⟩
                · rw [hfin_sorted]
                  exact List.mem_append_left _ h0.1
                · rw [hfin_sorted, listPos_append_of_mem _ _ _ h0.1,
                    listPos_append_of_mem _ _ _ ha]
                  exact h0.2.1
                · exact typeOkAt_coresEq (coresEq_markInserted st2 ni) a j e h0.2.2
              · -- the newly appended node
                subst ha
                intro na hna j e he hc
                rw [hfin_ni] at hna
                injection hna with hna
                subst hna
                have hej : ({ n2 with visited := false, inserted := true } : Node).input_edges
                    = node.input_edges := hedges_n2
                rw [hej] at he
                have hjlt : j < node.input_edges.length :=
                  (List.getElem?_eq_some.mp he).1
                have he1 : ({ node with visited := true } : Node).input_edges[j]? = some e := he
                have h0 := hpref j (List.mem_range.mpr hjlt) { node with visited := true }
                  e hn1 he1 hc
                refine ⟨?_, ?_, ?_⟩
                · rw [hfin_sorted]
                  exact List.mem_append_left _ h0.1
                · rw [hfin_sorted, listPos_append_of_mem _ _ _ h0.1,
                    listPos_append_not_mem _ _ _ hni_not]
                  have : listPos a [a] = 0 := by simp [listPos]
                  rw [this]
                  simpa using listPos_lt_length _ _ h0.1
                · exact typeOkAt_coresEq
                    (coresEq_trans hpost12.cores (coresEq_markInserted st2 a))
                    a j e h0.2
          refine ⟨hinvF, ?_, ?_⟩
          · -- SortPost st (markInserted ni st2)
            refine ⟨hcoresF, ?_, ?_, ?_, ?_⟩
            · rcases hpost12.sorted_ext with ⟨d, hd⟩
              refine ⟨d ++ [ni], ?_⟩
              rw [hfin_sorted, hd]
              have hms : (markVisited ni st).sorted = st.sorted := rfl
              rw [hms, List.append_assoc]
            · intro i n n' hn hn'
              by_cases hi : i = ni
              · subst hi
                rw [h1] at hn
                injection hn with hn
                subst hn
                rw [hfin_ni] at hn'
                injection hn' with hn'
                subst hn'
                exact hvfalse.symm
              · rw [hfin_other i hi] at hn'
                have hm := hmv_other i hi
                have hn1' : (markVisited ni st).nodes[i]? = some n := by rw [hm]; exact hn
                exact hpost12.visited_eq i n n' hn1' hn'
            · intro i n n' hn hn' hins
              by_cases hi : i = ni
              · subst hi
                rw [hfin_ni] at hn'
                injection hn' with hn'
                subst hn'
                rfl
              · rw [hfin_other i hi] at hn'
                have hn1' : (markVisited ni st).nodes[i]? = some n := by
                  rw [hmv_other i hi]
                  exact hn
                exact hpost12.inserted_mono i n n' hn1' hn' hins
            · intro i n n' hn hn' hvis
              by_cases hi : i = ni
              · subst hi
                rw [h1] at hn
                injection hn with hn
                subst hn
                rw [hvfalse] at hvis
                cases hvis
              · rw [hfin_other i hi] at hn'
                have hn1' : (markVisited ni st).nodes[i]? = some n := by
                  rw [hmv_other i hi]
                  exact hn
                exact hpost12.visited_blocks i n n' hn1' hn' hvis
          · rw [hfin_sorted]
            simp

theorem sortLoopF_ok_inv (fuel : Nat) :
    ∀ (is : List Nat) (st stF : SortSt) (log : List LogMsg),
      SortLoopF fuel st is = (stF, log, true) → SortInv st →
      (∀ (i : Nat) (n : Node), st.nodes[i]? = some n → n.visited = false) →
      SortInv stF ∧ SortPost st stF ∧ (∀ i ∈ is, i ∈ stF.sorted) := by
  intro is
  induction is with
  | nil =>
    intro st stF log h hinv hunv
    unfold SortLoopF at h
    injection h with hA h
    subst hA
    exact ⟨hinv, sortPost_refl st, fun i hi => absurd hi (List.not_mem_nil i)⟩
  | cons ni rest ih =>
    intro st stF log h hinv hunv
    unfold SortLoopF at h
    rcases h1 : InsertNodeF fuel st ni with ⟨st', log1, out⟩
    rw [h1] at h
    cases out with
    | err =>
      injection h with hA h
      injection h with hB h
      cases h
    | fuelOut =>
      injection h with hA h
      injection h with hB h
      cases h
    | ok =>
      dsimp only at h
      rcases h2 : SortLoopF fuel st' rest with ⟨stF', log2, b⟩
      rw [h2] at h
      dsimp only at h
      injection h with hA h
      injection h with hB hC
      subst hA
      subst hC
      have hstep := insertNodeF_ok_inv fuel st ni st' log1 h1 hinv
        (fun n hn => Or.inr (hunv ni n hn))
      have hunv' : ∀ (i : Nat) (n : Node), st'.nodes[i]? = some n → n.visited = false := by
        intro i n hn
        rcases coresEq_some (coresEq_symm hstep.2.1.cores) i n hn with ⟨n0, hn0, _⟩
        rw [hstep.2.1.visited_eq i n0 n hn0 hn]
        exact hunv i n0 hn0
      have hrest := ih st' stF' log2 h2 hstep.1 hunv'
      refine ⟨hrest.1, sortPost_trans hstep.2.1 hrest.2.1, ?_⟩
      intro i hi
      rcases List.mem_cons.mp hi with hi | hi
      · subst hi
        exact mem_sorted_ext hrest.2.1 hstep.2.2
      · exact hrest.2.2 i hi

/-! Flags of freshly built nodes survive the layout phases. -/

def AllFlagsFalse (ns : List Node) : Prop :=
  ∀ n ∈ ns, n.inserted = false ∧ n.visited = false

instance (ns : List Node) : Decidable (AllFlagsFalse ns) :=
  inferInstanceAs (Decidable (∀ n ∈ ns, n.inserted = false ∧ n.visited = false))

theorem mem_updateNth {α : Type _} (f : α → α) (i : Nat) (l : List α) (y : α)
    (h : y ∈ updateNth f i l) : y ∈ l ∨ ∃ x ∈ l, y = f x := by
  induction l generalizing i with
  | nil => cases i <;> exact absurd h (List.not_mem_nil y)
  | cons x xs ih =>
    cases i with
    | zero =>
      rcases List.mem_cons.mp h with h | h
      · exact Or.inr ⟨x, List.mem_cons_self x xs, h⟩
      · exact Or.inl (List.mem_cons_of_mem _ h)
    | succ i =>
      rcases List.mem_cons.mp h with h | h
      · exact Or.inl (h ▸ List.mem_cons_self x xs)
      · rcases ih i h with h | ⟨z, hz, hy⟩
        · exact Or.inl (List.mem_cons_of_mem _ h)
        · exact Or.inr ⟨z, List.mem_cons_of_mem _ hz, hy⟩

theorem allFlagsFalse_updateNth (ns : List Node) (i : Nat) (f : Node → Node)
    (hf : ∀ n, (f n).inserted = n.inserted ∧ (f n).visited = n.visited)
    (h : AllFlagsFalse ns) : AllFlagsFalse (updateNth f i ns) := by
  intro n hn
  rcases mem_updateNth f i ns n hn with hn | ⟨x, hx, hxy⟩
  · exact h n hn
  · subst hxy
    rcases h x hx with ⟨h1, h2⟩
    exact ⟨(hf x).1.trans h1, (hf x).2.trans h2⟩

theorem allFlagsFalse_resize (ns : List Node) (h : AllFlagsFalse ns) :
    AllFlagsFalse (resizeOutputEdges ns) := by
  intro n hn
  rcases List.mem_map.mp hn with ⟨x, hx, hxy⟩
  subst hxy
  exact h x hx

theorem allFlagsFalse_phase1Edge (nodes : List Node) (off : Nat) (i j : Nat)
    (nodes' : List Node) (off' : Nat)
    (hp : phase1Edge nodes off i j = .inl (nodes', off'))
    (h : AllFlagsFalse nodes) : AllFlagsFalse nodes' := by
  unfold phase1Edge at hp
  rcases h1 : nodes[i]? with _ | node
  · rw [h1] at hp
    cases hp
  · rw [h1] at hp
    dsimp only at hp
    rcases h2 : node.input_edges[j]? with _ | edge
    · rw [h2] at hp
      cases hp
    · rw [h2] at hp
      dsimp only at hp
      by_cases hc : edge.connected = true
      · rw [if_pos hc] at hp
        rcases h3 : nodes[edge.target.node_index]? with _ | tgt
        · rw [h3] at hp
          cases hp
        · rw [h3] at hp
          dsimp only at hp
          by_cases h4 : edge.target.edge_index < tgt.output_edges.length
          · rw [if_pos h4] at hp
            injection hp with hp
            injection hp with hp _
            subst hp
            exact allFlagsFalse_updateNth _ _ _ (fun n => ⟨rfl, rfl⟩) h
          · rw [if_neg h4] at hp
            cases hp
      · rw [if_neg hc] at hp
        rcases h5 : node.signature.input_parameters[j]? with _ | ty
        · rw [h5] at hp
          cases hp
        · rw [h5] at hp
          dsimp only at hp
          injection hp with hp
          injection hp with hp _
          subst hp
          exact allFlagsFalse_updateNth _ _ _ (fun n => ⟨rfl, rfl⟩) h

theorem allFlagsFalse_phase1Edges (i : Nat) (js : List Nat) :
    ∀ nodes off nodes' off',
      phase1Edges nodes off i js = (nodes', off', none) →
      AllFlagsFalse nodes → AllFlagsFalse nodes' := by
  induction js with
  | nil =>
    intro nodes off nodes' off' hp h
    unfold phase1Edges at hp
    injection hp with hp _
    subst hp
    exact h
  | cons j rest ih =>
    intro nodes off nodes' off' hp h
    unfold phase1Edges at hp
    rcases h1 : phase1Edge nodes off i j with ⟨nodes1, off1⟩ | m
    · rw [h1] at hp
      dsimp only at hp
      exact ih nodes1 off1 nodes' off' hp
        (allFlagsFalse_phase1Edge nodes off i j nodes1 off1 h1 h)
    · rw [h1] at hp
      dsimp only at hp
      injection hp with _ hp
      injection hp with _ hp
      cases hp

theorem allFlagsFalse_phase1Nodes (gname : String) (is : List Nat) :
    ∀ nodes off nodes' off',
      phase1Nodes gname nodes off is = (nodes', off', none) →
      AllFlagsFalse nodes → AllFlagsFalse nodes' := by
  induction is with
  | nil =>
    intro nodes off nodes' off' hp h
    unfold phase1Nodes at hp
    injection hp with hp _
    subst hp
    exact h
  | cons i rest ih =>
    intro nodes off nodes' off' hp h
    unfold phase1Nodes at hp
    rcases h1 : nodes[i]? with _ | node
    · rw [h1] at hp
      injection hp with _ hp
      injection hp with _ hp
      cases hp
    · rw [h1] at hp
      dsimp only at hp
      by_cases h2 : node.signature.input_parameters.length ≠ node.input_edges.length
      · rw [if_pos h2] at hp
        injection hp with _ hp
        injection hp with _ hp
        cases hp
      · rw [if_neg h2] at hp
        rcases h3 : phase1Edges nodes off i
            (List.range node.signature.input_parameters.length)
          with ⟨nodes1, off1, merr⟩
        rw [h3] at hp
        cases merr with
        | none =>
          dsimp only at hp
          exact ih nodes1 off1 nodes' off' hp
            (allFlagsFalse_phase1Edges i _ nodes off nodes1 off1 h3 h)
        | some m =>
          dsimp only at hp
          injection hp with _ hp
          injection hp with _ hp
          cases hp

theorem allFlagsFalse_phase3Nodes : ∀ (nodes : List Node) (off : Nat),
    AllFlagsFalse nodes → AllFlagsFalse (phase3Nodes off nodes).2 := by
  intro nodes
  induction nodes with
  | nil =>
    intro off h x hx
    exact absurd hx (List.not_mem_nil x)
  | cons n rest ih =>
    intro off h m hm
    rcases List.mem_cons.mp hm with hm | hm
    · subst hm
      exact h n (List.mem_cons_self n rest)
    · exact ih (phase3Node off n).1 (fun x hx => h x (List.mem_cons_of_mem n hx)) m hm

/-- A graph as the build phase leaves it: nothing sorted yet, not finalized,
all sort marks clear (as `Graph::AddNode` constructs nodes). -/
def WellFormedBuild (g : Graph) : Prop :=
  g.sorted_nodes = [] ∧ g.nodes_finalized = false ∧ AllFlagsFalse g.nodes

/-- `SortGraphNodes` is its internal `SortLoopF` run, component by component. -/
theorem sortGraphNodes_spec (g : Graph) :
    (Graph.SortGraphNodes g).2.2
        = (SortLoopF (g.nodes.length + 1) (sortEntry g) (List.range g.nodes.length)).2.2 ∧
    (Graph.SortGraphNodes g).1.nodes
        = (SortLoopF (g.nodes.length + 1) (sortEntry g) (List.range g.nodes.length)).1.nodes ∧
    (Graph.SortGraphNodes g).1.sorted_nodes
        = (SortLoopF (g.nodes.length + 1) (sortEntry g) (List.range g.nodes.length)).1.sorted :=
  ⟨rfl, rfl, rfl⟩

/-- The heart of the sort correctness argument: when `FinalizeNodes` succeeds
on a freshly built graph, the returned nodes and evaluation order are those of
a sorting state satisfying `SortInv`, in which every node index appears. -/
theorem finalize_sortInv (g : Graph)
    (hwf : WellFormedBuild g)
    (hok : (Graph.FinalizeNodes g).2.2 = true) :
    ∃ stF : SortSt,
      SortInv stF ∧
      (Graph.FinalizeNodes g).1.nodes = stF.nodes ∧
      (Graph.FinalizeNodes g).1.sorted_nodes = stF.sorted ∧
      (∀ i : Nat, i < stF.nodes.length → i ∈ stF.sorted) := by
  rcases hp : phase1Nodes g.graph_name (resizeOutputEdges g.nodes) 0
      (List.range (resizeOutputEdges g.nodes).length) with ⟨nodes1, isz, err⟩
  unfold Graph.FinalizeNodes at hok ⊢
  rw [hp] at hok ⊢
  cases err with
  | some m =>
    dsimp only at hok
    exact Bool.noConfusion hok
  | none =>
    dsimp only at hok ⊢
    unfold finalizeSort at hok ⊢
    obtain ⟨hb2, hn2, ho2⟩ := sortGraphNodes_spec (finalizeLayout g nodes1 isz)
    rcases hs : Graph.SortGraphNodes (finalizeLayout g nodes1 isz) with ⟨g3, logs, b⟩
    rw [hs] at hok hb2 hn2 ho2
    cases b
    · dsimp only at hok
      exact Bool.noConfusion hok
    · dsimp only at hok hb2 hn2 ho2 ⊢
      rcases hrun : SortLoopF ((finalizeLayout g nodes1 isz).nodes.length + 1)
          (sortEntry (finalizeLayout g nodes1 isz))
          (List.range (finalizeLayout g nodes1 isz).nodes.length)
        with ⟨stF, logF, bF⟩
      rw [hrun] at hb2 hn2 ho2
      dsimp only at hb2 hn2 ho2
      have hbF : bF = true := hb2.symm
      subst hbF
      -- the sort entry state satisfies the invariant
      have hflags : AllFlagsFalse (finalizeLayout g nodes1 isz).nodes := by
        have h1 := allFlagsFalse_resize g.nodes hwf.2.2
        have h2 := allFlagsFalse_phase1Nodes g.graph_name _ _ _ _ _ hp h1
        exact allFlagsFalse_phase3Nodes nodes1 0 h2
      have hinv0 : SortInv (sortEntry (finalizeLayout g nodes1 isz)) := by
        refine ⟨?_, fun i => ?_, fun x hx => ?_⟩
        · show g.sorted_nodes.Nodup
          rw [hwf.1]
          exact List.nodup_nil
        · show i ∈ g.sorted_nodes ↔ InsertedAt (finalizeLayout g nodes1 isz).nodes i
          rw [hwf.1]
          constructor
          · intro hx
            cases hx
          · rintro ⟨n, hn, hins⟩
            rcases hflags n (mem_of_getElem?_some hn) with ⟨h1, _⟩
            rw [h1] at hins
            cases hins
        · have hx' : x ∈ g.sorted_nodes := hx
          rw [hwf.1] at hx'
          cases hx'
      have hunv0 : ∀ (i : Nat) (n : Node),
          (sortEntry (finalizeLayout g nodes1 isz)).nodes[i]? = some n →
          n.visited = false :=
        fun _ n hn => (hflags n (mem_of_getElem?_some hn)).2
      obtain ⟨hinvF, hpostF, hall⟩ := sortLoopF_ok_inv _ _ _ _ _ hrun hinv0 hunv0
      refine ⟨stF, hinvF, hn2, ho2, fun i hi => ?_⟩
      have hi' : i < (sortEntry (finalizeLayout g nodes1 isz)).nodes.length := by
        rw [← hpostF.cores.1]
        exact hi
      exact hall i (List.mem_range.mpr hi')

/-- C2: on every graph on which `FinalizeNodes` succeeds, every connected
input edge of node `a` targeting an output of node `b` has `b` strictly
before `a` in the sorted evaluation order. -/
theorem finalize_topological_order (g : Graph)
    (hwf : WellFormedBuild g)
    (hok : (Graph.FinalizeNodes g).2.2 = true)
    (a j : Nat) (na : Node) (e : InputEdge)
    (hna : (Graph.FinalizeNodes g).1.nodes[a]? = some na)
    (he : na.input_edges[j]? = some e)
    (hc : e.connected = true) :
    e.target.node_index ∈ (Graph.FinalizeNodes g).1.sorted_nodes ∧
    a ∈ (Graph.FinalizeNodes g).1.sorted_nodes ∧
    listPos e.target.node_index (Graph.FinalizeNodes g).1.sorted_nodes <
      listPos a (Graph.FinalizeNodes g).1.sorted_nodes := by
  obtain ⟨stF, hinvF, hn, ho, hall⟩ := finalize_sortInv g hwf hok
  rw [hn] at hna
  rw [ho]
  have hamem : a ∈ stF.sorted := hall a (List.getElem?_eq_some.mp hna).1
  have h0 := hinvF.edges_done a hamem na hna j e he hc
  exact ⟨h0.1, hamem, h0.2.1⟩

/-- Witness for C2 on the chain graph: node 1's connected input targets
node 0, which sorts strictly before it. -/
theorem finalize_topological_order_witness :
    (Graph.FinalizeNodes chainGraph).2.2 = true ∧
    0 ∈ (Graph.FinalizeNodes chainGraph).1.sorted_nodes ∧
    1 ∈ (Graph.FinalizeNodes chainGraph).1.sorted_nodes ∧
    listPos 0 (Graph.FinalizeNodes chainGraph).1.sorted_nodes <
      listPos 1 (Graph.FinalizeNodes chainGraph).1.sorted_nodes := by
  have h := finalize_topological_order chainGraph ⟨rfl, rfl, by decide⟩ (by decide)
    1 0 ((Graph.FinalizeNodes chainGraph).1.nodes.get ⟨1, by decide⟩)
    (connectedTo 0 0) (by decide) (by decide) (by decide)
  exact ⟨by decide, h.1, h.2.1, h.2.2⟩

/-! ### Claim C3: cycles are rejected and block instantiation -/

/-- Node `a` has a connected input edge reading node `b`'s output: the
dependency relation the evaluation order must respect. -/
def dependsOn (ns : List Node) (a b : Nat) : Prop :=
  ∃ (na : Node) (j : Nat) (e : InputEdge),
    ns[a]? = some na ∧ na.input_edges[j]? = some e ∧
    e.connected = true ∧ e.target.node_index = b

/-- The connected wiring contains a directed cycle. -/
def HasCycle (ns : List Node) : Prop :=
  ∃ a, Relation.TransGen (dependsOn ns) a a

/-- `NodesPres` carries dependencies forward: the preserved wiring retains
every dependency of the original wiring. -/
theorem dependsOn_pres {ns ns' : List Node} (hp : NodesPres ns ns')
    {a b : Nat} (h : dependsOn ns a b) : dependsOn ns' a b := by
  obtain ⟨na, j, e, hna, he, hc, hb⟩ := h
  have ha : a < ns'.length := by
    rw [hp.1]
    exact (List.getElem?_eq_some.mp hna).1
  have hn' : ns'[a]? = some (ns'.get ⟨a, ha⟩) := by
    simp [List.getElem?_eq_getElem ha]
  rcases hp.2 a _ hn' with ⟨n0, hn0, _, hlen, hedges⟩
  rw [hna] at hn0
  injection hn0 with hn0
  subst hn0
  have hj : j < (ns'.get ⟨a, ha⟩).input_edges.length := by
    rw [hlen]
    exact (List.getElem?_eq_some.mp he).1
  have he' : (ns'.get ⟨a, ha⟩).input_edges[j]?
      = some ((ns'.get ⟨a, ha⟩).input_edges.get ⟨j, hj⟩) := by
    simp [List.getElem?_eq_getElem hj]
  rcases hedges j _ he' with ⟨e0, he0, hc', ht', _⟩
  rw [he] at he0
  injection he0 with he0
  subst he0
  exact ⟨_, j, _, hn', he', by rw [hc']; exact hc, by rw [ht']; exact hb⟩

/-- In a sorting state satisfying the invariant and containing every node,
each chain of dependencies strictly decreases the position in the order. -/
theorem depends_listPos_lt {stF : SortSt} (hinv : SortInv stF)
    (hall : ∀ i : Nat, i < stF.nodes.length → i ∈ stF.sorted) :
    ∀ x y : Nat, Relation.TransGen (dependsOn stF.nodes) x y →
      listPos y stF.sorted < listPos x stF.sorted := by
  have hstep : ∀ x y : Nat, dependsOn stF.nodes x y →
      listPos y stF.sorted < listPos x stF.sorted := by
    rintro x y ⟨na, j, e, hna, he, hc, hb⟩
    have hx : x ∈ stF.sorted := hall x (List.getElem?_eq_some.mp hna).1
    have h0 := hinv.edges_done x hx na hna j e he hc
    rw [← hb]
    exact h0.2.1
  intro x y hxy
  induction hxy with
  | single h => exact hstep _ _ h
  | tail hxb h ih => exact lt_trans (hstep _ _ h) ih

/-- C3: a freshly built graph whose connected wiring has a directed cycle
fails `FinalizeNodes` (it returns `false`), is never marked finalized, and no
`GraphState` can be initialized from the result for any behaviors. -/
theorem finalize_rejects_cycle (g : Graph)
    (hwf : WellFormedBuild g) (hcyc : HasCycle g.nodes) :
    (Graph.FinalizeNodes g).2.2 = false ∧
    (Graph.FinalizeNodes g).1.nodes_finalized = false ∧
    ∀ behaviors : Nat → Behavior,
      GraphState.InitState behaviors (Graph.FinalizeNodes g).1 = none := by
  have hfail : (Graph.FinalizeNodes g).2.2 = false := by
    cases hres : (Graph.FinalizeNodes g).2.2
    · rfl
    · exfalso
      obtain ⟨stF, hinvF, hn, ho, hall⟩ := finalize_sortInv g hwf hres
      obtain ⟨a, ha⟩ := hcyc
      have hpres := nodesPres_finalize g hres
      have ha' : Relation.TransGen (dependsOn stF.nodes) a a := by
        refine Relation.TransGen.mono (fun x y hxy => ?_) ha
        have h1 := dependsOn_pres hpres hxy
        rw [hn] at h1
        exact h1
      exact absurd (depends_listPos_lt hinvF hall a a ha') (lt_irrefl _)
  have hflag : (Graph.FinalizeNodes g).1.nodes_finalized = false := by
    rw [finalize_fail_preserves_flag g hfail]
    exact hwf.2.1
  refine ⟨hfail, hflag, fun behaviors => ?_⟩
  unfold GraphState.InitState
  rw [hflag]
  rfl

/-- Witness for C3 on the two-node cycle graph. -/
theorem finalize_rejects_cycle_witness :
    (Graph.FinalizeNodes cycleGraph).2.2 = false ∧
    (Graph.FinalizeNodes cycleGraph).1.nodes_finalized = false ∧
    GraphState.InitState (fun _ => behSilent) (Graph.FinalizeNodes cycleGraph).1 = none := by
  have hcyc : HasCycle cycleGraph.nodes := by
    refine ⟨0, @Relation.TransGen.tail Nat (dependsOn cycleGraph.nodes) 0 1 0
      (Relation.TransGen.single ?_) ?_⟩
    · exact ⟨cycleGraph.nodes.get ⟨0, by decide⟩, 0, connectedTo 1 0,
        by decide, by decide, by decide, by decide⟩
    · exact ⟨cycleGraph.nodes.get ⟨1, by decide⟩, 0, connectedTo 0 0,
        by decide, by decide, by decide, by decide⟩
  have h := finalize_rejects_cycle cycleGraph ⟨rfl, rfl, by decide⟩ hcyc
  exact ⟨h.1, h.2.1, h.2.2 (fun _ => behSilent)⟩

/-! ### Claim C7: type-mismatch rejection and its diagnostic -/

/-- The wiring contains a connected input edge whose declared type differs
from the type of the output edge it targets. -/
def HasTypeMismatch (ns : List Node) : Prop :=
  ∃ (a j : Nat) (na nb : Node) (e : InputEdge) (tin tout : Ty),
    ns[a]? = some na ∧ na.input_edges[j]? = some e ∧ e.connected = true ∧
    ns[e.target.node_index]? = some nb ∧
    na.signature.input_parameters[j]? = some tin ∧
    nb.signature.output_parameters[e.target.edge_index]? = some tout ∧
    tin ≠ tout

/-- Accuracy of a diagnostic with respect to the wiring `ns`: if the message
is a type-mismatch diagnostic, then the node/edge it names really is a
connected edge with that target, the two type names it prints are the names of
the edge's declared input type and the target's declared output type, and
those types really differ. -/
def MsgNamesEdgeTypes (ns : List Node) (m : LogMsg) : Prop :=
  ∀ (gname : String) (ni j : Nat) (tnm : String) (tni tei : Nat) (onm : String),
    m = LogMsg.typeMismatch gname ni j tnm tni tei onm →
    ∃ (na nb : Node) (e : InputEdge) (tin tout : Ty),
      ns[ni]? = some na ∧ na.input_edges[j]? = some e ∧ e.connected = true ∧
      e.target.node_index = tni ∧ e.target.edge_index = tei ∧
      ns[tni]? = some nb ∧
      na.signature.input_parameters[j]? = some tin ∧
      nb.signature.output_parameters[tei]? = some tout ∧
      tin ≠ tout ∧ tin.name = tnm ∧ tout.name = onm

theorem msgNames_assert (ns : List Node) :
    MsgNamesEdgeTypes ns LogMsg.assertViolation := by
  intro gname ni j tnm tni tei onm hEq
  cases hEq

theorem msgNames_circular (ns : List Node) :
    MsgNamesEdgeTypes ns LogMsg.circularDependency := by
  intro gname ni j tnm tni tei onm hEq
  cases hEq

theorem msgNames_edgeCount (ns : List Node) (gn : String) (a b c : Nat) :
    MsgNamesEdgeTypes ns (LogMsg.edgeCountMismatch gn a b c) := by
  intro gname ni j tnm tni tei onm hEq
  cases hEq

/-- Accuracy transports backward along `CoresEq` (cores keep signatures and
input edges). -/
theorem msgNames_coresEq {ns ns' : List Node} (h : CoresEq ns ns')
    {m : LogMsg} (hm : MsgNamesEdgeTypes ns' m) : MsgNamesEdgeTypes ns m := by
  intro gname ni j tnm tni tei onm hEq
  obtain ⟨na, nb, e, tin, tout, hna, he, hc, htn, hte, hnb, hti, hto, hne, h1, h2⟩ :=
    hm gname ni j tnm tni tei onm hEq
  obtain ⟨na0, hna0, hcore_a⟩ := coresEq_some (coresEq_symm h) ni na hna
  obtain ⟨nb0, hnb0, hcore_b⟩ := coresEq_some (coresEq_symm h) tni nb hnb
  rcases core_eq_fields hcore_a with ⟨hsig_a, hinp_a, _⟩
  rcases core_eq_fields hcore_b with ⟨hsig_b, _⟩
  refine ⟨na0, nb0, e, tin, tout, hna0, ?_, hc, htn, hte, hnb0, ?_, ?_, hne, h1, h2⟩
  · rw [hinp_a]
    exact he
  · rw [hsig_a]
    exact hti
  · rw [hsig_b]
    exact hto

/-- Accuracy transports backward along `NodesPres` (layout keeps signatures
and the connection state and target of every input edge). -/
theorem msgNames_nodesPres {ns ns' : List Node} (h : NodesPres ns ns')
    {m : LogMsg} (hm : MsgNamesEdgeTypes ns' m) : MsgNamesEdgeTypes ns m := by
  intro gname ni j tnm tni tei onm hEq
  obtain ⟨na, nb, e, tin, tout, hna, he, hc, htn, hte, hnb, hti, hto, hne, h1, h2⟩ :=
    hm gname ni j tnm tni tei onm hEq
  rcases h.2 ni na hna with ⟨na0, hna0, hsig_a, _, hedges⟩
  rcases hedges j e he with ⟨e0, he0, hc0, ht0, _⟩
  rcases h.2 tni nb hnb with ⟨nb0, hnb0, hsig_b, _, _⟩
  refine ⟨na0, nb0, e0, tin, tout, hna0, he0, ?_, ?_, ?_, hnb0, ?_, ?_, hne, h1, h2⟩
  · rw [← hc0]
    exact hc
  · rw [← ht0]
    exact htn
  · rw [← ht0]
    exact hte
  · rw [← hsig_a]
    exact hti
  · rw [← hsig_b]
    exact hto

/-- Every diagnostic the edge loop can emit is accurate for the state it was
emitted from. -/
theorem edgeLoop_log_acc
    (insert : SortSt → Nat → SortSt × List LogMsg × SortOutcome)
    (hinsC : ∀ (st : SortSt) (ni : Nat), CoresEq st.nodes (insert st ni).1.nodes ∧
      (insert st ni).1.graph_name = st.graph_name)
    (hinsA : ∀ (st : SortSt) (ni : Nat) (m : LogMsg),
      m ∈ (insert st ni).2.1 → MsgNamesEdgeTypes st.nodes m) :
    ∀ (js : List Nat) (st : SortSt) (ni : Nat) (m : LogMsg),
      m ∈ (edgeLoopGo insert st ni js).2.1 → MsgNamesEdgeTypes st.nodes m := by
  intro js
  induction js with
  | nil =>
    intro st ni m hm
    exact absurd hm (List.not_mem_nil m)
  | cons j rest ih =>
    intro st ni m
    unfold edgeLoopGo
    rcases h1 : st.nodes[ni]? with _ | node
    · intro hm
      rw [List.mem_singleton.mp hm]
      exact msgNames_assert _
    · dsimp only
      rcases h2 : node.input_edges[j]? with _ | edge
      · intro hm
        rw [List.mem_singleton.mp hm]
        exact msgNames_assert _
      · dsimp only
        by_cases hc : edge.connected = true
        · rw [if_pos hc]
          rcases h3 : st.nodes[edge.target.node_index]? with _ | dependency
          · intro hm
            rw [List.mem_singleton.mp hm]
            exact msgNames_assert _
          · dsimp only
            rcases h4 : node.signature.input_parameters[j]? with _ | input_type
            · intro hm
              rw [List.mem_singleton.mp hm]
              exact msgNames_assert _
            · rcases h5 : dependency.signature.output_parameters[edge.target.edge_index]?
                with _ | output_type
              · intro hm
                rw [List.mem_singleton.mp hm]
                exact msgNames_assert _
              · dsimp only
                by_cases h6 : input_type ≠ output_type
                · rw [if_pos h6]
                  intro hm
                  rw [List.mem_singleton.mp hm]
                  intro gname ni' j' tnm tni tei onm hEq
                  injection hEq with e1 e2 e3 e4 e5 e6 e7
                  subst e2
                  subst e3
                  subst e4
                  subst e5
                  subst e6
                  subst e7
                  exact ⟨node, dependency, edge, input_type, output_type,
                    h1, h2, hc, rfl, rfl, h3, h4, h5, h6, rfl, rfl⟩
                · rw [if_neg h6]
                  by_cases h7 : dependency.visited = true
                  · rw [if_pos h7]
                    intro hm
                    rw [List.mem_singleton.mp hm]
                    exact msgNames_circular _
                  · rw [if_neg h7]
                    by_cases h8 : !dependency.inserted
                    · rw [if_pos h8]
                      have ha := hinsC st edge.target.node_index
                      have hb := hinsA st edge.target.node_index
                      rcases h9 : insert st edge.target.node_index with ⟨st', log, out⟩
                      rw [h9] at ha hb
                      cases out with
                      | ok =>
                        dsimp only [prependLog]
                        intro hm
                        rcases List.mem_append.mp hm with hm | hm
                        · exact hb m hm
                        · exact msgNames_coresEq ha.1 (ih st' ni m hm)
                      | err =>
                        dsimp only
                        intro hm
                        exact hb m hm
                      | fuelOut =>
                        dsimp only
                        intro hm
                        exact hb m hm
                    · rw [if_neg h8]
                      exact ih st ni m
        · rw [if_neg hc]
          exact ih st ni m

/-- Every diagnostic `InsertNode` can emit is accurate for its entry state. -/
theorem insertNodeF_log_acc : ∀ (fuel : Nat) (st : SortSt) (ni : Nat) (m : LogMsg),
    m ∈ (InsertNodeF fuel st ni).2.1 → MsgNamesEdgeTypes st.nodes m := by
  intro fuel
  induction fuel with
  | zero =>
    intro st ni m hm
    exact absurd hm (List.not_mem_nil m)
  | succ fuel ih =>
    intro st ni m
    unfold InsertNodeF
    rcases h1 : st.nodes[ni]? with _ | node
    · intro hm
      rw [List.mem_singleton.mp hm]
      exact msgNames_assert _
    · dsimp only
      by_cases h2 : node.inserted = true
      · rw [if_pos h2]
        intro hm
        exact absurd hm (List.not_mem_nil m)
      · rw [if_neg h2]
        rcases h3 : edgeLoopGo (InsertNodeF fuel) (markVisited ni st) ni
            (List.range node.input_edges.length) with ⟨st2, log, out⟩
        have hl : ∀ m' ∈ log, MsgNamesEdgeTypes st.nodes m' := by
          intro m' hm'
          have ha := edgeLoop_log_acc (InsertNodeF fuel) (coresEq_insertNodeF fuel) ih
            (List.range node.input_edges.length) (markVisited ni st) ni m'
            (by rw [h3]; exact hm')
          exact msgNames_coresEq (coresEq_markVisited st ni) ha
        cases out with
        | ok =>
          dsimp only
          intro hm
          exact hl m hm
        | err =>
          dsimp only
          intro hm
          exact hl m hm
        | fuelOut =>
          dsimp only
          intro hm
          exact hl m hm

/-- Every diagnostic the sorting loop can emit is accurate for its entry
state. -/
theorem sortLoopF_log_acc (fuel : Nat) : ∀ (is : List Nat) (st : SortSt) (m : LogMsg),
    m ∈ (SortLoopF fuel st is).2.1 → MsgNamesEdgeTypes st.nodes m := by
  intro is
  induction is with
  | nil =>
    intro st m hm
    exact absurd hm (List.not_mem_nil m)
  | cons ni rest ih =>
    intro st m
    unfold SortLoopF
    rcases h1 : InsertNodeF fuel st ni with ⟨st', log, out⟩
    have hins := coresEq_insertNodeF fuel st ni
    rw [h1] at hins
    have hl : ∀ m' ∈ log, MsgNamesEdgeTypes st.nodes m' := by
      intro m' hm'
      exact insertNodeF_log_acc fuel st ni m' (by rw [h1]; exact hm')
    cases out with
    | ok =>
      dsimp only
      intro hm
      rcases List.mem_append.mp hm with hm | hm
      · exact hl m hm
      · exact msgNames_coresEq hins.1 (ih st' m hm)
    | err =>
      dsimp only
      intro hm
      exact hl m hm
    | fuelOut =>
      dsimp only
      intro hm
      exact hl m hm

theorem phase1Edge_log_acc (ns nodes : List Node) (off i j : Nat) (m : LogMsg)
    (hp : phase1Edge nodes off i j = .inr m) : MsgNamesEdgeTypes ns m := by
  unfold phase1Edge at hp
  rcases h1 : nodes[i]? with _ | node
  · rw [h1] at hp
    injection hp with hp
    subst hp
    exact msgNames_assert ns
  · rw [h1] at hp
    dsimp only at hp
    rcases h2 : node.input_edges[j]? with _ | edge
    · rw [h2] at hp
      injection hp with hp
      subst hp
      exact msgNames_assert ns
    · rw [h2] at hp
      dsimp only at hp
      by_cases hc : edge.connected = true
      · rw [if_pos hc] at hp
        rcases h3 : nodes[edge.target.node_index]? with _ | tgt
        · rw [h3] at hp
          injection hp with hp
          subst hp
          exact msgNames_assert ns
        · rw [h3] at hp
          dsimp only at hp
          by_cases h4 : edge.target.edge_index < tgt.output_edges.length
          · rw [if_pos h4] at hp
            exact Sum.noConfusion hp
          · rw [if_neg h4] at hp
            injection hp with hp
            subst hp
            exact msgNames_assert ns
      · rw [if_neg hc] at hp
        rcases h5 : node.signature.input_parameters[j]? with _ | ty
        · rw [h5] at hp
          injection hp with hp
          subst hp
          exact msgNames_assert ns
        · rw [h5] at hp
          dsimp only at hp
          exact Sum.noConfusion hp

theorem phase1Edges_log_acc (ns : List Node) (i : Nat) (js : List Nat) :
    ∀ (nodes : List Node) (off : Nat) (nodes' : List Node) (off' : Nat) (m : LogMsg),
      phase1Edges nodes off i js = (nodes', off', some m) →
      MsgNamesEdgeTypes ns m := by
  induction js with
  | nil =>
    intro nodes off nodes' off' m hp
    unfold phase1Edges at hp
    injection hp with _ hp
    injection hp with _ hp
    cases hp
  | cons j rest ih =>
    intro nodes off nodes' off' m hp
    unfold phase1Edges at hp
    rcases h1 : phase1Edge nodes off i j with ⟨nodes1, off1⟩ | m1
    · rw [h1] at hp
      dsimp only at hp
      exact ih nodes1 off1 nodes' off' m hp
    · rw [h1] at hp
      dsimp only at hp
      injection hp with _ hp
      injection hp with _ hp
      injection hp with hp
      subst hp
      exact phase1Edge_log_acc ns nodes off i j m1 h1

theorem phase1Nodes_log_acc (ns : List Node) (gname : String) (is : List Nat) :
    ∀ (nodes : List Node) (off : Nat) (nodes' : List Node) (off' : Nat) (m : LogMsg),
      phase1Nodes gname nodes off is = (nodes', off', some m) →
      MsgNamesEdgeTypes ns m := by
  induction is with
  | nil =>
    intro nodes off nodes' off' m hp
    unfold phase1Nodes at hp
    injection hp with _ hp
    injection hp with _ hp
    cases hp
  | cons i rest ih =>
    intro nodes off nodes' off' m hp
    unfold phase1Nodes at hp
    rcases h1 : nodes[i]? with _ | node
    · rw [h1] at hp
      injection hp with _ hp
      injection hp with _ hp
      injection hp with hp
      subst hp
      exact msgNames_assert ns
    · rw [h1] at hp
      dsimp only at hp
      by_cases h2 : node.signature.input_parameters.length ≠ node.input_edges.length
      · rw [if_pos h2] at hp
        injection hp with _ hp
        injection hp with _ hp
        injection hp with hp
        subst hp
        exact msgNames_edgeCount ns gname i node.input_edges.length
          node.signature.input_parameters.length
      · rw [if_neg h2] at hp
        rcases h3 : phase1Edges nodes off i
            (List.range node.signature.input_parameters.length)
          with ⟨nodes1, off1, merr⟩
        rw [h3] at hp
        cases merr with
        | none =>
          dsimp only at hp
          exact ih nodes1 off1 nodes' off' m hp
        | some m1 =>
          dsimp only at hp
          injection hp with _ hp
          injection hp with _ hp
          injection hp with hp
          subst hp
          exact phase1Edges_log_acc ns i _ nodes off nodes1 off1 m1 h3

/-- The sorting run inside `SortGraphNodes`, log component. -/
theorem sortGraphNodes_log (g : Graph) :
    (Graph.SortGraphNodes g).2.1
      = (SortLoopF (g.nodes.length + 1) (sortEntry g) (List.range g.nodes.length)).2.1 :=
  rfl

/-- Every diagnostic `FinalizeNodes` emits is accurate for the wiring of the
graph it was called on. -/
theorem finalize_log_acc (g : Graph) :
    ∀ m ∈ (Graph.FinalizeNodes g).2.1, MsgNamesEdgeTypes g.nodes m := by
  intro m
  rcases hp : phase1Nodes g.graph_name (resizeOutputEdges g.nodes) 0
      (List.range (resizeOutputEdges g.nodes).length) with ⟨nodes1, isz, err⟩
  unfold Graph.FinalizeNodes
  rw [hp]
  cases err with
  | some msg =>
    dsimp only
    intro hm
    rw [List.mem_singleton.mp hm]
    exact msgNames_nodesPres (nodesPres_resize g.nodes)
      (phase1Nodes_log_acc (resizeOutputEdges g.nodes) g.graph_name _ _ _ _ _ msg hp)
  | none =>
    dsimp only
    unfold finalizeSort
    rcases hs : Graph.SortGraphNodes (finalizeLayout g nodes1 isz) with ⟨g3, logs, b⟩
    have hlog : logs
        = (SortLoopF ((finalizeLayout g nodes1 isz).nodes.length + 1)
            (sortEntry (finalizeLayout g nodes1 isz))
            (List.range (finalizeLayout g nodes1 isz).nodes.length)).2.1 := by
      rw [← sortGraphNodes_log (finalizeLayout g nodes1 isz), hs]
    have hpres : NodesPres g.nodes (finalizeLayout g nodes1 isz).nodes :=
      nodesPres_trans (nodesPres_trans (nodesPres_resize g.nodes)
        (nodesPres_phase1Nodes g.graph_name _ _ _ _ _ hp))
        (nodesPres_phase3Nodes 0 nodes1)
    cases b
    · dsimp only
      intro hm
      rw [hlog] at hm
      exact msgNames_nodesPres hpres (sortLoopF_log_acc _ _ _ m hm)
    · dsimp only
      intro hm
      rw [hlog] at hm
      exact msgNames_nodesPres hpres (sortLoopF_log_acc _ _ _ m hm)

/-- `NodesPres` forward edge transport: the node and edge at any index survive
with the same signature, connection state and target. -/
theorem edge_pres {ns ns' : List Node} (hp : NodesPres ns ns')
    {a j : Nat} {na : Node} {e : InputEdge}
    (hna : ns[a]? = some na) (he : na.input_edges[j]? = some e) :
    ∃ (na' : Node) (e' : InputEdge),
      ns'[a]? = some na' ∧ na'.input_edges[j]? = some e' ∧
      na'.signature = na.signature ∧
      e'.connected = e.connected ∧ e'.target = e.target := by
  have ha : a < ns'.length := by
    rw [hp.1]
    exact (List.getElem?_eq_some.mp hna).1
  have hn' : ns'[a]? = some (ns'.get ⟨a, ha⟩) := by
    simp [List.getElem?_eq_getElem ha]
  rcases hp.2 a _ hn' with ⟨n0, hn0, hsig, hlen, hedges⟩
  rw [hna] at hn0
  injection hn0 with hn0
  subst hn0
  have hj : j < (ns'.get ⟨a, ha⟩).input_edges.length := by
    rw [hlen]
    exact (List.getElem?_eq_some.mp he).1
  have he' : (ns'.get ⟨a, ha⟩).input_edges[j]?
      = some ((ns'.get ⟨a, ha⟩).input_edges.get ⟨j, hj⟩) := by
    simp [List.getElem?_eq_getElem hj]
  rcases hedges j _ he' with ⟨e0, he0, hc0, ht0, _⟩
  rw [he] at he0
  injection he0 with he0
  subst he0
  exact ⟨_, _, hn', he', hsig, hc0, ht0⟩

/-- C7 as amended: on a freshly built graph with a connected, type-mismatched
edge, `FinalizeNodes` fails (returns `false`); and every type-mismatch
diagnostic it emits (for this or any edge) names the actual declared input and
output types of the edge it reports.  As stated the claim is false: the
diagnostic for the mismatched edge can be preempted by an earlier failure, so
no diagnostic naming the two types need be emitted at all (see the
counterexample). -/
theorem finalize_type_mismatch_fails (g : Graph)
    (hwf : WellFormedBuild g) (hmm : HasTypeMismatch g.nodes) :
    (Graph.FinalizeNodes g).2.2 = false ∧
    ∀ m ∈ (Graph.FinalizeNodes g).2.1, MsgNamesEdgeTypes g.nodes m := by
  refine ⟨?_, finalize_log_acc g⟩
  cases hres : (Graph.FinalizeNodes g).2.2
  · rfl
  · exfalso
    obtain ⟨stF, hinvF, hn, ho, hall⟩ := finalize_sortInv g hwf hres
    obtain ⟨a, j, na, nb, e, tin, tout, hna, he, hc, hnb, hti, hto, hne⟩ := hmm
    have hpres := nodesPres_finalize g hres
    rw [hn] at hpres
    obtain ⟨na', e', hna', he', hsig', hc', ht'⟩ := edge_pres hpres hna he
    have hamem : a ∈ stF.sorted := hall a (List.getElem?_eq_some.mp hna').1
    have h0 := hinvF.edges_done a hamem na' hna' j e' he' (hc'.trans hc)
    obtain ⟨na2, nb2, tin2, tout2, hna2, hnb2, hti2, hto2, heq⟩ := h0.2.2
    rw [hna'] at hna2
    injection hna2 with hna2
    subst hna2
    rw [ht'] at hnb2 hto2
    rcases hpres.2 e.target.node_index nb2 hnb2 with ⟨nb0, hnb0, hsigb, _⟩
    rw [hnb] at hnb0
    injection hnb0 with hnb0
    subst hnb0
    rw [hsig'] at hti2
    rw [hti] at hti2
    injection hti2 with hti2
    rw [hsigb] at hto2
    rw [hto] at hto2
    injection hto2 with hto2
    subst hti2
    subst hto2
    exact hne heq

/-- Counterexample to C7 as stated: `mismatchPreemptedGraph` contains a
connected edge whose declared input type (int) differs from the targeted
output's type (float), and `FinalizeNodes` does fail — but its only diagnostic
is an edge-count failure of an earlier node, which names no types: the
type-mismatch diagnostic is preempted. -/
theorem type_mismatch_diagnostic_preempted :
    HasTypeMismatch mismatchPreemptedGraph.nodes ∧
    (Graph.FinalizeNodes mismatchPreemptedGraph).2.2 = false ∧
    (Graph.FinalizeNodes mismatchPreemptedGraph).2.1
      = [LogMsg.edgeCountMismatch "preempted" 0 0 1] := by
  refine ⟨⟨2, 0, mismatchPreemptedGraph.nodes.get ⟨2, by decide⟩,
    mismatchPreemptedGraph.nodes.get ⟨1, by decide⟩, connectedTo 1 0, intTy, floatTy,
    by decide, by decide, by decide, by decide, by decide, by decide, by decide⟩,
    by decide, by decide⟩

/-- Witness for the amended C7 at the mismatch graph. -/
theorem finalize_type_mismatch_fails_witness :
    (Graph.FinalizeNodes mismatchGraph).2.2 = false ∧
    ∀ m ∈ (Graph.FinalizeNodes mismatchGraph).2.1,
      MsgNamesEdgeTypes mismatchGraph.nodes m :=
  finalize_type_mismatch_fails mismatchGraph ⟨rfl, rfl, by decide⟩
    ⟨1, 0, mismatchGraph.nodes.get ⟨1, by decide⟩, mismatchGraph.nodes.get ⟨0, by decide⟩,
      connectedTo 0 0, intTy, floatTy, by decide, by decide, by decide, by decide,
      by decide, by decide, by decide⟩

end Breadboard
